import Mathlib

/-!
Verification development for the zodenv repository (src/main.ts).

The source is a thin, typed layer over the zod validation library:

* cleanStringArray and the transform object (src/main.ts lines 7 to 56)
  are plain functions from raw values to typed values; the ones that call
  an inner zod parse can raise a ZodError.
* the schema object (lines 68 to 210) builds zod schemas out of those
  transforms: union-of-literals for booleans, z.string().transform(f) for
  string based fields, z.string().or(z.number()).transform(f) for numeric
  fields, z.object for config shapes and JSON payloads.
* parse (lines 220 to 229) applies schema.parse to the environment
  mapping and returns the parsed object together with a getter.

This file gives a shallow embedding of those functions.  JavaScript
numbers are modelled by exact decimal values (structure Dec below:
mantissa times a power of ten); every finite double is such a value, and
every numeric value produced by the repository (parseInt and parseFloat
results on environment strings) stays inside the model.  The IEEE
infinities are represented explicitly where they can arise (parseFloat);
NaN is represented as Option.none of the numeric parsers.  Values at or
above 1e21, whose JavaScript decimal rendering switches to exponential
notation, do not occur in any claim and the rendering function is exact
below that range.  Lone UTF-16 surrogates, which Lean strings cannot
hold, are outside the model.

The recursive engine functions take an explicit fuel argument so that
they are structurally recursive and evaluate inside the kernel; fuel
exhaustion yields a distinguished thrown result (never a success), all
universal theorems hold for every fuel, and concrete theorems use a fuel
larger than the nesting depth of the schema at hand.
-/

/-! ## JavaScript string primitives -/

/-- Whitespace test of JavaScript (the set trimmed by String.prototype.trim
and skipped by parseInt and parseFloat): tab, line feed, vertical tab,
form feed, carriage return, space, no-break space, BOM, the line and
paragraph separators and the Unicode space separators. -/
def isJsWs (c : Char) : Bool :=
  c = ' ' || c = '\t' || c = '\n' || c = '\x0b' || c = '\x0c' || c = '\r' ||
  c = ' ' || c = '﻿' || c = ' ' ||
  (0x2000 ≤ c.toNat && c.toNat ≤ 0x200a) ||
  c = ' ' || c = ' ' || c = ' ' || c = ' ' || c = '　'

/-- Drop leading JavaScript whitespace (used by parseInt and parseFloat). -/
def jsTrimLeft (cs : List Char) : List Char := cs.dropWhile isJsWs

/-- Model of String.prototype.trim on a character list. -/
def jsTrimChars (cs : List Char) : List Char :=
  ((cs.dropWhile isJsWs).reverse.dropWhile isJsWs).reverse

/-- Model of String.prototype.trim. -/
def jsTrim (s : String) : String := ⟨jsTrimChars s.data⟩

/-- Model of String.prototype.split with a single character separator and
no limit: value.split with separator sep.  An empty input yields one
empty piece, adjacent separators yield empty pieces. -/
def splitOnCharJs (sep : Char) : List Char → List (List Char)
  | [] => [[]]
  | c :: cs =>
    if c = sep then [] :: splitOnCharJs sep cs
    else
      match splitOnCharJs sep cs with
      | [] => [[c]]
      | p :: ps => (c :: p) :: ps

/-! ## Exact decimal numbers (the JavaScript number model) -/

/-- Exact decimal number: the value mant times ten to the exp.  Every
finite JavaScript double is such a value.  Engine values are kept in
canonical form (see isCanonDec) so that structural equality of Dec
coincides with numeric equality. -/
structure Dec where
  mant : Int
  exp : Int
  deriving DecidableEq, Repr

/-- Rational value of a decimal (used in proofs only). -/
def Dec.toRat (d : Dec) : ℚ := (d.mant : ℚ) * 10 ^ d.exp

/-- Canonical form predicate: zero is stored as mantissa 0 with exponent
0, and a nonzero mantissa is not divisible by ten.  Canonical
representations are unique for a given numeric value. -/
def isCanonDec (d : Dec) : Bool :=
  if d.mant = 0 then d.exp = 0 else ¬ (d.mant % 10 = 0)

/-- Strip factors of ten from the mantissa into the exponent, with fuel. -/
def canonRec : Nat → Dec → Dec
  | 0, d => d
  | n + 1, d =>
    if d.mant ≠ 0 ∧ d.mant % 10 = 0 then canonRec n ⟨d.mant / 10, d.exp + 1⟩ else d

/-- Canonicalize a decimal.  The fuel mant.natAbs is always sufficient
because a nonzero mantissa divisible by ten shrinks in absolute value at
every step. -/
def canonDec (d : Dec) : Dec :=
  if d.mant = 0 then ⟨0, 0⟩ else canonRec d.mant.natAbs d

/-- Canonical decimal holding the integer n. -/
def Dec.ofInt (n : Int) : Dec := canonDec ⟨n, 0⟩

/-- JavaScript number: an exact finite decimal or one of the two
infinities.  NaN does not appear here; the numeric parsers below return
none where JavaScript would return NaN, and the zod number check rejects
NaN, so no claim needs a NaN value. -/
inductive JsNumber where
  | finite (d : Dec)
  | posInf
  | negInf
  deriving DecidableEq, Repr

/-! ## Digit reading -/

/-- Decimal digit value of a character (meaningful on digit characters). -/
def digitVal (c : Char) : Nat := c.toNat - 48

/-- Value of a big-endian string of decimal digit characters. -/
def digitsValN (cs : List Char) : Nat :=
  cs.foldl (fun a c => a * 10 + digitVal c) 0

/-- Hexadecimal digit test (as accepted by parseInt with a 0x prefix and
by JSON unicode escapes; both cases of letters). -/
def isHexDigit (c : Char) : Bool :=
  c.isDigit || (97 ≤ c.toNat && c.toNat ≤ 102) || (65 ≤ c.toNat && c.toNat ≤ 70)

/-- Hexadecimal digit value of a character (meaningful on hex digits). -/
def hexVal (c : Char) : Nat :=
  if 97 ≤ c.toNat then c.toNat - 87
  else if 65 ≤ c.toNat then c.toNat - 55
  else c.toNat - 48

/-- Value of a big-endian string of hexadecimal digit characters. -/
def hexValN (cs : List Char) : Nat :=
  cs.foldl (fun a c => a * 16 + hexVal c) 0

/-! ## Number.parseInt and Number.parseFloat -/

/-- Model of Number.parseInt with an unspecified radix argument, as the
source calls it: skip leading whitespace, read an optional sign, switch
to radix sixteen after a literal 0x or 0X prefix and otherwise use radix
ten, then read the longest prefix of digits of that radix.  No digits
means NaN, modelled as none. -/
def parseIntJS (s : String) : Option Int :=
  let cs := jsTrimLeft s.data
  let (sign, cs) : Int × List Char :=
    match cs with
    | '-' :: t => (-1, t)
    | '+' :: t => (1, t)
    | _ => (1, cs)
  match cs with
  | '0' :: x :: t =>
    if x = 'x' ∨ x = 'X' then
      let ds := t.takeWhile isHexDigit
      if ds = [] then none else some (sign * hexValN ds)
    else
      let ds := (('0' :: x :: t).takeWhile Char.isDigit)
      if ds = [] then none else some (sign * digitsValN ds)
  | cs =>
    let ds := cs.takeWhile Char.isDigit
    if ds = [] then none else some (sign * digitsValN ds)

/-- Mantissa and scale of a decimal literal: integer digits ids, optional
fraction digits fds and exponent e give the decimal value
(ids ++ fds) * 10 ^ (e - length fds). -/
def decOfParts (sign : Int) (ids fds : List Char) (e : Int) : Dec :=
  let m : Int := sign * (digitsValN (ids ++ fds) : Int)
  canonDec ⟨m, e - fds.length⟩

/-- Model of Number.parseFloat: skip leading whitespace, read an optional
sign, then the longest prefix shaped as a StrDecimalLiteral: the literal
Infinity, or digits with an optional dot, optional fraction digits and an
optional exponent part (which only counts when it has at least one
digit).  No numeric prefix means NaN, modelled as none.  Trailing
garbage is ignored. -/
def parseFloatJS (s : String) : Option JsNumber :=
  let cs := jsTrimLeft s.data
  let (sign, cs) : Int × List Char :=
    match cs with
    | '-' :: t => (-1, t)
    | '+' :: t => (1, t)
    | _ => (1, cs)
  match cs with
  | 'I' :: 'n' :: 'f' :: 'i' :: 'n' :: 'i' :: 't' :: 'y' :: _ =>
    some (if sign = 1 then .posInf else .negInf)
  | cs =>
    let ids := cs.takeWhile Char.isDigit
    let cs1 := cs.dropWhile Char.isDigit
    let (fds, cs2) : List Char × List Char :=
      match cs1 with
      | '.' :: t => (t.takeWhile Char.isDigit, t.dropWhile Char.isDigit)
      | _ => ([], cs1)
    if ids = [] ∧ fds = [] then none
    else
      let e : Int :=
        match cs2 with
        | c :: t =>
          if c = 'e' ∨ c = 'E' then
            match t with
            | '-' :: t2 =>
              let eds := t2.takeWhile Char.isDigit
              if eds = [] then 0 else -(digitsValN eds : Int)
            | '+' :: t2 =>
              let eds := t2.takeWhile Char.isDigit
              if eds = [] then 0 else (digitsValN eds : Int)
            | t2 =>
              let eds := t2.takeWhile Char.isDigit
              if eds = [] then 0 else (digitsValN eds : Int)
          else 0
        | [] => 0
      some (.finite (decOfParts sign ids fds e))

/-! ## Rendering numbers (Number.prototype.toString) -/

/-- Decimal digit character for a digit below ten. -/
def digitChar : Nat → Char
  | 0 => '0' | 1 => '1' | 2 => '2' | 3 => '3' | 4 => '4'
  | 5 => '5' | 6 => '6' | 7 => '7' | 8 => '8' | _ => '9'

/-- Big-endian decimal digit characters of a natural number. -/
def renderNat (n : Nat) : List Char :=
  if n = 0 then ['0'] else (Nat.digits 10 n).reverse.map digitChar

/-- Zero padding on the left to at least k plus one digits (so that a
value below one renders with a single zero before the point). -/
def padLeftZeros (k : Nat) (ds : List Char) : List Char :=
  if ds.length < k + 1 then List.replicate (k + 1 - ds.length) '0' ++ ds else ds

/-- Unsigned body of the decimal rendering: for a nonnegative exponent
the mantissa digits followed by that many zeros, otherwise the padded
mantissa digits with the decimal point placed that many places from the
right. -/
def decBodyChars (d : Dec) : List Char :=
  if 0 ≤ d.exp then renderNat d.mant.natAbs ++ List.replicate d.exp.toNat '0'
  else
    let k := (-d.exp).toNat
    let ds := padLeftZeros k (renderNat d.mant.natAbs)
    ds.take (ds.length - k) ++ '.' :: ds.drop (ds.length - k)

/-- Decimal rendering of a Dec, matching the JavaScript number to string
conversion on the range where that conversion is plain decimal (absolute
value below 1e21 and at or above 1e-6; all values in this development are
in that range): digits of the mantissa with the decimal point placed
according to the exponent, zero padded as needed, and a leading minus for
negative values. -/
def renderDec (d : Dec) : List Char :=
  if d.mant < 0 then '-' :: decBodyChars d else decBodyChars d

/-- Model of the number to string conversion. -/
def jsNumToString (d : Dec) : String := ⟨renderDec d⟩

/-- String conversion of a JavaScript number, including the infinities. -/
def jsNumberToString : JsNumber → String
  | .finite d => jsNumToString d
  | .posInf => "Infinity"
  | .negInf => "-Infinity"

/-- Argument type of the numeric transforms in the source: a string or a
number (the TypeScript type string or number). -/
def StrOrNum : Type := String ⊕ JsNumber

/-- Model of value.toString() on a string or number argument. -/
def jsToString : StrOrNum → String
  | .inl s => s
  | .inr n => jsNumberToString n

/-! ## Zod issues and parse results -/

/-- Path element of a zod issue: an object key or an array index. -/
inductive PathEl where
  | key (k : String)
  | idx (i : Nat)
  deriving DecidableEq, Repr

/-- Issue codes, following the zod issue codes the embedded schemas can
produce, plus a code for a JSON.parse SyntaxError escaping the json
transform and a code marking fuel exhaustion of the model (the latter is
never produced when the fuel exceeds the schema nesting depth, and it is
a thrown result, never a success). -/
inductive ICode where
  | invalidType
  | invalidLiteral
  | invalidString
  | invalidUnion
  | tooSmall
  | tooBig
  | jsonSyntax
  | fuelExhausted
  deriving DecidableEq, Repr

/-- Validation issue: a path and a code.  The human readable message is
not modelled; no claim depends on it. -/
structure Issue where
  path : List PathEl
  code : ICode
  deriving DecidableEq, Repr

/-- Outcome of running a zod schema inside the engine.  ok is success;
fail is a recorded validation failure that participates in issue
aggregation; thrown is a raised exception (a ZodError thrown by an inner
parse call inside a transform function, or a SyntaxError from JSON.parse)
which aborts the whole surrounding parse at once. -/
inductive PResult (α : Type) where
  | ok (v : α)
  | fail (issues : List Issue)
  | thrown (issues : List Issue)
  deriving Repr

def PResult.isOk {α : Type} : PResult α → Bool
  | .ok _ => true
  | _ => false

def PResult.isFail {α : Type} : PResult α → Bool
  | .fail _ => true
  | _ => false

def PResult.isThrown {α : Type} : PResult α → Bool
  | .thrown _ => true
  | _ => false

/-! ## String format checks (z.string().email(), the domain regex) -/

/-- Character class of the zod email regex local part. -/
def isEmailLocalChar (c : Char) : Bool :=
  c.isAlphanum || c = '_' || c = '\'' || c = '+' || c = '-' || c = '.'

/-- Character class allowed as the final local part character (no dot and
no apostrophe). -/
def isEmailLocalLast (c : Char) : Bool :=
  c.isAlphanum || c = '_' || c = '+' || c = '-'

/-- No two adjacent dots (the negative lookahead of the email regex). -/
def noDoubleDot : List Char → Bool
  | '.' :: '.' :: _ => false
  | _ :: t => noDoubleDot t
  | [] => true

/-- Local part of the zod email regex: nonempty, drawn from the local
character class, not starting with a dot, no adjacent dots, and ending in
a character from the restricted final class. -/
def zEmailLocalCheck (cs : List Char) : Bool :=
  match cs with
  | [] => false
  | c :: _ =>
    !(c = '.') && cs.all isEmailLocalChar && noDoubleDot cs &&
      (match cs.getLast? with
       | some l => isEmailLocalLast l
       | none => false)

/-- Host label of the zod email regex: alphanumeric first character, then
alphanumerics and hyphens. -/
def zEmailLabelCheck (cs : List Char) : Bool :=
  match cs with
  | [] => false
  | c :: t => c.isAlphanum && t.all (fun x => x.isAlphanum || x = '-')

/-- Final label: at least two letters. -/
def zTldCheck (cs : List Char) : Bool :=
  2 ≤ cs.length && cs.all Char.isAlpha

/-- Host part of the zod email regex: one or more labels, a dot after
each, then the final letters-only label. -/
def zEmailHostCheck (cs : List Char) : Bool :=
  let parts := splitOnCharJs '.' cs
  2 ≤ parts.length && parts.dropLast.all zEmailLabelCheck &&
    (match parts.getLast? with
     | some t => zTldCheck t
     | none => false)

/-- Model of the zod v3 email validation regex (case insensitive classes
written out directly): exactly one at sign, a checked local part before
it and a checked host after it. -/
def zEmailCheck (s : String) : Bool :=
  match splitOnCharJs '@' s.data with
  | [l, d] => zEmailLocalCheck l && zEmailHostCheck d
  | _ => false

/-- Model of the domain regex of the source (src/main.ts line 53):
anchored, one or more labels of alphanumerics and hyphens each followed
by a dot, then at least two letters.  The optional leading www dot group
of the regex is subsumed by the general label group.  Written as the
equivalent split form: at least two dot separated parts, all but the last
nonempty over the label class, the last at least two letters. -/
def zDomainCheck (s : String) : Bool :=
  let parts := splitOnCharJs '.' s.data
  2 ≤ parts.length &&
    parts.dropLast.all (fun p => !p.isEmpty && p.all (fun c => c.isAlphanum || c = '-')) &&
    (match parts.getLast? with
     | some t => zTldCheck t
     | none => false)

/-! ## JSON values -/

/-- Structured JavaScript value: the possible outputs of JSON.parse and
of the parse engine (strings, exact decimal numbers, booleans, null,
arrays, objects as ordered key value lists). -/
inductive JsonValue where
  | str (s : String)
  | num (d : Dec)
  | bool (b : Bool)
  | null
  | arr (elems : List JsonValue)
  | obj (members : List (String × JsonValue))

/-- Property lookup on an object built from an ordered member list: a
later duplicate key overrides an earlier one, as when JSON.parse builds a
JavaScript object.  none models absence (undefined). -/
def lookupLast {α : Type} (ms : List (String × α)) (k : String) : Option α :=
  ms.foldl (fun acc kv => if kv.1 == k then some kv.2 else acc) none

/-! ## The transform object of the source (src/main.ts lines 7 to 56) -/

/-- Model of mapping a throwing function over a list: the first raised
error aborts (Array.prototype.map with a throwing callback). -/
def mapEx {α β : Type} (f : α → Except (List Issue) β) :
    List α → Except (List Issue) (List β)
  | [] => .ok []
  | x :: xs =>
    match f x with
    | .error e => .error e
    | .ok b =>
      match mapEx f xs with
      | .error e => .error e
      | .ok bs => .ok (b :: bs)

/-- Model of z.string().email().parse on a string argument: returns the
string when the email check passes, otherwise throws an invalid string
ZodError. -/
def zStringEmailParse (s : String) : Except (List Issue) String :=
  if zEmailCheck s then .ok s else .error [⟨[], .invalidString⟩]

/-- Model of z.number().parse on an arbitrary value: succeeds exactly on
numbers (NaN, which zod rejects, is not a value of the model; the NaN
case is handled where parseInt or parseFloat return none). -/
def zNumberParseJs (v : JsonValue) : Except (List Issue) Dec :=
  match v with
  | .num d => .ok d
  | _ => .error [⟨[], .invalidType⟩]

/-- Source function cleanStringArray (src/main.ts lines 7 to 9): split the
raw string on commas, then for each piece remove every double quote
character (replaceAll) and trim surrounding whitespace, in that order. -/
def cleanStringArray (value : String) : List String :=
  (splitOnCharJs ',' value.data).map
    (fun cs => ⟨jsTrimChars (cs.filter (fun c => !(c = '"')))⟩)

namespace transform

/-- Source transform.emailArray: clean the pieces, then run
z.string().email().parse on every piece (throwing on the first failure). -/
def emailArray (value : String) : Except (List Issue) (List String) :=
  mapEx zStringEmailParse (cleanStringArray value)

/-- Source transform.stringArray: clean the pieces, then run
z.string().parse on every piece, which is the identity on strings. -/
def stringArray (value : String) : Except (List Issue) (List String) :=
  mapEx (fun s => Except.ok s) (cleanStringArray value)

/-- Source transform.numberArray: clean the pieces, then run
z.number().parse on every piece.  The pieces produced by the split are
strings, and z.number() does not coerce, so every piece fails with an
invalid type ZodError. -/
def numberArray (value : String) : Except (List Issue) (List Dec) :=
  mapEx (fun s => zNumberParseJs (.str s)) (cleanStringArray value)

/-- Source transform.boolean: strict triple equality of the raw value
with the literal string true.  Total: it never throws, and it returns
false on every string other than the literal true. -/
def boolean (value : String) : Bool := value == "true"

/-- Source transform.integer: z.number().parse(Number.parseInt(
value.toString())).  Returns the parsed integer, throwing exactly when
parseInt returns NaN. -/
def integer (value : StrOrNum) : Except (List Issue) Int :=
  match parseIntJS (jsToString value) with
  | none => .error [⟨[], .invalidType⟩]
  | some n => .ok n

/-- Source transform.float: z.number().parse(Number.parseFloat(
value.toString())).  Returns the parsed number (possibly an infinity,
which zod accepts), throwing exactly when parseFloat returns NaN. -/
def float (value : StrOrNum) : Except (List Issue) JsNumber :=
  match parseFloatJS (jsToString value) with
  | none => .error [⟨[], .invalidType⟩]
  | some n => .ok n

/-- Source transform.port: z.number().min(0).max(65536).parse(
Number.parseInt(value.toString())): NaN throws an invalid type error,
a value below zero throws a too small error, a value above 65536 throws
a too big error, anything else is returned. -/
def port (value : StrOrNum) : Except (List Issue) Int :=
  match parseIntJS (jsToString value) with
  | none => .error [⟨[], .invalidType⟩]
  | some n =>
    if n < 0 then .error [⟨[], .tooSmall⟩]
    else if 65536 < n then .error [⟨[], .tooBig⟩]
    else .ok n

/-- Source transform.email: z.string().email().parse(value). -/
def email (value : String) : Except (List Issue) String :=
  zStringEmailParse value

/-- Source transform.domain: the anchored domain regex parse. -/
def domain (value : String) : Except (List Issue) String :=
  if zDomainCheck value then .ok value else .error [⟨[], .invalidString⟩]

end transform

/-! ## The schema model

Zod schemas as the repository builds them.  The url schema is omitted:
its check delegates to the WHATWG URL constructor, whose grammar is out
of scope here and on which no claim depends.  The float schema is
likewise omitted at the schema level because its output can be an IEEE
infinity, which the structured value type does not carry; the underlying
transform.float function is embedded above and settled standalone. -/

/-- String format check attached to z.string(). -/
inductive StrCheck where
  | email
  | domain
  deriving DecidableEq, Repr

/-- Transform functions (other than transform.json) that the schema
object attaches with the zod transform combinator. -/
inductive SimpleTransform where
  | emailArrayT
  | stringArrayT
  | numberArrayT
  | booleanT
  | integerT
  | portT
  | emailT
  | domainT
  deriving DecidableEq, Repr

/-- Zod schema tree as constructed by the schema object of the source:
plain strings with an optional format check, numbers, string literals,
unions, objects, arrays, tuples, a transform over an inner schema, the
json transform (a z.string() with transform.json of a nested shape
attached), the optional wrapper and the default wrapper (whose stored
raw default value goes through the inner schema like a present value). -/
inductive ZSchema where
  | zstring (check : Option StrCheck)
  | znumber
  | zliteral (lit : String)
  | zunion (options : List ZSchema)
  | zobject (shape : List (String × ZSchema))
  | zarray (elem : ZSchema)
  | ztuple (items : List ZSchema)
  | zeffects (inner : ZSchema) (t : SimpleTransform)
  | zjson (inner : ZSchema) (shape : List (String × ZSchema))
  | zoptional (inner : ZSchema)
  | zdefault (inner : ZSchema) (dflt : JsonValue)

/-- Prefix a key onto the path of an issue (how a zod object reports a
field issue under the field name). -/
def tagKey (k : String) (i : Issue) : Issue := ⟨.key k :: i.path, i.code⟩

/-- Prefix an index onto the path of an issue (how a zod array reports an
element issue under its position). -/
def tagIdx (n : Nat) (i : Issue) : Issue := ⟨.idx n :: i.path, i.code⟩

/-- Run the options of a union in order: the first success wins, recorded
failures make the engine move on to the next option, and a thrown error
propagates.  When no option succeeds the union records a single invalid
union issue, as zod does. -/
def tryOptions (p : ZSchema → Option JsonValue → PResult (Option JsonValue)) :
    List ZSchema → Option JsonValue → PResult (Option JsonValue)
  | [], _ => .fail [⟨[], .invalidUnion⟩]
  | o :: os, v =>
    match p o v with
    | .ok r => .ok r
    | .thrown e => .thrown e
    | .fail _ => tryOptions p os v

/-- Field loop of a zod object parse: fields are processed in shape
order; a recorded failure is tagged with the field key and aggregated
with the failures of the remaining fields; a thrown error aborts the
whole loop at once, discarding everything recorded so far; a field whose
result is undefined (an absent optional) contributes no key. -/
def mapFields (p : ZSchema → Option JsonValue → PResult (Option JsonValue)) :
    List (String × ZSchema) → List (String × JsonValue) →
    PResult (List (String × JsonValue))
  | [], _ => .ok []
  | (k, sch) :: tl, ms =>
    match p sch (lookupLast ms k) with
    | .thrown e => .thrown e
    | .fail is =>
      match mapFields p tl ms with
      | .thrown e => .thrown e
      | .fail is2 => .fail (is.map (tagKey k) ++ is2)
      | .ok _ => .fail (is.map (tagKey k))
    | .ok w =>
      match mapFields p tl ms with
      | .thrown e => .thrown e
      | .fail is2 => .fail is2
      | .ok tl' =>
        match w with
        | none => .ok tl'
        | some x => .ok ((k, x) :: tl')

/-- Element loop of a zod array parse: elements are processed in order,
recorded failures are tagged with the element index and aggregated, and a
thrown error aborts at once.  An undefined element result (only possible
for schemas the repository never builds, such as an array of optionals)
is recorded as null, since the structured value type has no undefined. -/
def mapElems (p : ZSchema → Option JsonValue → PResult (Option JsonValue))
    (sch : ZSchema) : Nat → List JsonValue → PResult (List JsonValue)
  | _, [] => .ok []
  | i, x :: xs =>
    match p sch (some x) with
    | .thrown e => .thrown e
    | .fail is =>
      match mapElems p sch (i + 1) xs with
      | .thrown e => .thrown e
      | .fail is2 => .fail (is.map (tagIdx i) ++ is2)
      | .ok _ => .fail (is.map (tagIdx i))
    | .ok w =>
      match mapElems p sch (i + 1) xs with
      | .thrown e => .thrown e
      | .fail is2 => .fail is2
      | .ok tl => .ok (w.getD .null :: tl)

/-- Item loop of a zod tuple parse: pairwise over schemas and values,
with indexed aggregation as for arrays. -/
def mapItems (p : ZSchema → Option JsonValue → PResult (Option JsonValue)) :
    Nat → List ZSchema → List JsonValue → PResult (List JsonValue)
  | _, [], _ => .ok []
  | _, _, [] => .ok []
  | i, sch :: schs, x :: xs =>
    match p sch (some x) with
    | .thrown e => .thrown e
    | .fail is =>
      match mapItems p i.succ schs xs with
      | .thrown e => .thrown e
      | .fail is2 => .fail (is.map (tagIdx i) ++ is2)
      | .ok _ => .fail (is.map (tagIdx i))
    | .ok w =>
      match mapItems p i.succ schs xs with
      | .thrown e => .thrown e
      | .fail is2 => .fail is2
      | .ok tl => .ok (w.getD .null :: tl)

/-! ## JSON text: JSON.stringify and JSON.parse

The encoder follows JSON.stringify on the value types above (no
undefined, no functions): compact output with no added whitespace,
strings escaped with the two character escapes for quote, backslash,
backspace, form feed, line feed, carriage return and tab, and unicode
escapes for the remaining control characters.  The parser follows the
strict JSON grammar of JSON.parse: optional whitespace between tokens,
the exact literals true, false and null, strings with the escape forms
above plus the slash escape and four digit unicode escapes, and numbers
with an optional minus, an integer part without a spurious leading zero,
an optional fraction and an optional exponent.  Duplicate object keys
are kept in order in the member list here, while JavaScript would
collapse them; object key lookup (lookupLast) gives the later duplicate
precedence, matching the collapsed object. -/

/-- Hexadecimal digit character for a value below sixteen (lower case, as
JSON.stringify emits). -/
def hexDigitChar : Nat → Char
  | 0 => '0' | 1 => '1' | 2 => '2' | 3 => '3' | 4 => '4'
  | 5 => '5' | 6 => '6' | 7 => '7' | 8 => '8' | 9 => '9'
  | 10 => 'a' | 11 => 'b' | 12 => 'c' | 13 => 'd' | 14 => 'e' | _ => 'f'

/-- Escape of a single character inside a JSON string literal. -/
def escapeChar (c : Char) : List Char :=
  if c = '"' then ['\\', '"']
  else if c = '\\' then ['\\', '\\']
  else if c = '\x08' then ['\\', 'b']
  else if c = '\x0c' then ['\\', 'f']
  else if c = '\n' then ['\\', 'n']
  else if c = '\r' then ['\\', 'r']
  else if c = '\t' then ['\\', 't']
  else if c.toNat < 32 then
    ['\\', 'u', '0', '0', hexDigitChar (c.toNat / 16), hexDigitChar (c.toNat % 16)]
  else [c]

/-- Escape every character of a string body. -/
def escChars (cs : List Char) : List Char :=
  cs.foldr (fun c acc => escapeChar c ++ acc) []

/-- JSON string literal for a string value, quotes included. -/
def encodeStringChars (s : String) : List Char :=
  '"' :: escChars s.data ++ ['"']

mutual

/-- Character stream of JSON.stringify on a structured value. -/
def encodeVal : JsonValue → List Char
  | .str s => encodeStringChars s
  | .num d => renderDec d
  | .bool b => if b then ['t', 'r', 'u', 'e'] else ['f', 'a', 'l', 's', 'e']
  | .null => ['n', 'u', 'l', 'l']
  | .arr [] => ['[', ']']
  | .arr (x :: xs) => '[' :: (encodeVal x ++ encodeElemsTail xs) ++ [']']
  | .obj [] => ['{', '}']
  | .obj (m :: ms) => '{' :: (encodeMemberJ m ++ encodeMembersTail ms) ++ ['}']

/-- Comma prefixed encodings of the remaining array elements. -/
def encodeElemsTail : List JsonValue → List Char
  | [] => []
  | x :: xs => ',' :: encodeVal x ++ encodeElemsTail xs

/-- Encoding of one object member: quoted key, colon, value. -/
def encodeMemberJ : String × JsonValue → List Char
  | (k, v) => encodeStringChars k ++ ':' :: encodeVal v

/-- Comma prefixed encodings of the remaining object members. -/
def encodeMembersTail : List (String × JsonValue) → List Char
  | [] => []
  | m :: ms => ',' :: encodeMemberJ m ++ encodeMembersTail ms

end

/-- Model of JSON.stringify. -/
def jsonStringify (v : JsonValue) : String := ⟨encodeVal v⟩

/-- JSON whitespace (the four characters the JSON grammar skips). -/
def isJWs (c : Char) : Bool :=
  c = ' ' || c = '\t' || c = '\n' || c = '\r'

/-- Skip JSON whitespace. -/
def skipJWs (cs : List Char) : List Char := cs.dropWhile isJWs

/-- Head test on a character list. -/
def headIs (c : Char) (cs : List Char) : Bool :=
  match cs with
  | x :: _ => x = c
  | [] => false

/-- Body of a JSON string literal after the opening quote: characters up
to the closing quote, with escapes decoded.  Raw control characters are
rejected, as is an invalid escape.  A unicode escape in the surrogate
range would decode through Char.ofNat to the null character; such
escapes never arise from encoding a Lean string. -/
def parseJStringChars : List Char → Option (List Char × List Char)
  | [] => none
  | c :: cs =>
    if c = '"' then some ([], cs)
    else if c = '\\' then
      match cs with
      | '"' :: t =>
        match parseJStringChars t with
        | some (acc, r) => some ('"' :: acc, r)
        | none => none
      | '\\' :: t =>
        match parseJStringChars t with
        | some (acc, r) => some ('\\' :: acc, r)
        | none => none
      | '/' :: t =>
        match parseJStringChars t with
        | some (acc, r) => some ('/' :: acc, r)
        | none => none
      | 'b' :: t =>
        match parseJStringChars t with
        | some (acc, r) => some ('\x08' :: acc, r)
        | none => none
      | 'f' :: t =>
        match parseJStringChars t with
        | some (acc, r) => some ('\x0c' :: acc, r)
        | none => none
      | 'n' :: t =>
        match parseJStringChars t with
        | some (acc, r) => some ('\n' :: acc, r)
        | none => none
      | 'r' :: t =>
        match parseJStringChars t with
        | some (acc, r) => some ('\r' :: acc, r)
        | none => none
      | 't' :: t =>
        match parseJStringChars t with
        | some (acc, r) => some ('\t' :: acc, r)
        | none => none
      | 'u' :: h1 :: h2 :: h3 :: h4 :: t =>
        if isHexDigit h1 && isHexDigit h2 && isHexDigit h3 && isHexDigit h4 then
          match parseJStringChars t with
          | some (acc, r) => some (Char.ofNat (hexValN [h1, h2, h3, h4]) :: acc, r)
          | none => none
        else none
      | _ => none
    else if c.toNat < 32 then none
    else
      match parseJStringChars cs with
      | some (acc, r) => some (c :: acc, r)
      | none => none

/-- Optional exponent part of a JSON number, then assembly of the decimal
value from sign, integer digits, fraction digits and exponent. -/
def parseJExp (sign : Int) (ids fds : List Char) (cs : List Char) :
    Option (Dec × List Char) :=
  if headIs 'e' cs || headIs 'E' cs then
    let t := cs.tail
    let (esign, t2) : Int × List Char :=
      if headIs '-' t then (-1, t.tail)
      else if headIs '+' t then (1, t.tail)
      else (1, t)
    let eds := t2.takeWhile Char.isDigit
    if eds = [] then none
    else some (decOfParts sign ids fds (esign * (digitsValN eds : Int)),
               t2.dropWhile Char.isDigit)
  else some (decOfParts sign ids fds 0, cs)

/-- JSON number token: optional minus, integer digits with the strict
leading zero rule, optional fraction, optional exponent. -/
def parseJNumber (cs : List Char) : Option (Dec × List Char) :=
  let (sign, cs1) : Int × List Char :=
    if headIs '-' cs then (-1, cs.tail) else (1, cs)
  let ids := cs1.takeWhile Char.isDigit
  let cs2 := cs1.dropWhile Char.isDigit
  if ids = [] then none
  else if 2 ≤ ids.length && headIs '0' ids then none
  else if headIs '.' cs2 then
    let t := cs2.tail
    let fds := t.takeWhile Char.isDigit
    let cs3 := t.dropWhile Char.isDigit
    if fds = [] then none else parseJExp sign ids fds cs3
  else parseJExp sign ids [] cs2

/-- Match an exact literal tail (rue, alse, ull). -/
def dropLit (pre cs : List Char) : Option (List Char) :=
  match pre, cs with
  | [], rest => some rest
  | p :: ps, c :: t => if c = p then dropLit ps t else none
  | _ :: _, [] => none

/-- Element loop of a JSON array: one value, then either a comma and more
elements or the closing bracket.  The loop fuel is the remaining input
length at the call site, which bounds the element count. -/
def jsonElemsLoop (pv : List Char → Option (JsonValue × List Char)) :
    Nat → List Char → Option (List JsonValue × List Char)
  | 0, _ => none
  | f + 1, cs =>
    match pv cs with
    | none => none
    | some (v, r) =>
      let u := skipJWs r
      if headIs ',' u then
        match jsonElemsLoop pv f u.tail with
        | some (vs, r3) => some (v :: vs, r3)
        | none => none
      else if headIs ']' u then some ([v], u.tail)
      else none

/-- Member loop of a JSON object: quoted key, colon, value, then either a
comma and more members or the closing brace. -/
def jsonMembersLoop (pv : List Char → Option (JsonValue × List Char)) :
    Nat → List Char → Option (List (String × JsonValue) × List Char)
  | 0, _ => none
  | f + 1, cs =>
    match skipJWs cs with
    | [] => none
    | c :: r =>
      if c = '"' then
        match parseJStringChars r with
        | none => none
        | some (k, r2) =>
          let u := skipJWs r2
          if headIs ':' u then
            match pv u.tail with
            | none => none
            | some (v, r4) =>
              let w := skipJWs r4
              if headIs ',' w then
                match jsonMembersLoop pv f w.tail with
                | some (ms, r6) => some ((⟨k⟩, v) :: ms, r6)
                | none => none
              else if headIs '}' w then some ([(⟨k⟩, v)], w.tail)
              else none
          else none
      else none

/-- One JSON value from the input stream: leading whitespace, then a
string, array, object, literal or number.  The fuel bounds the nesting
depth of values. -/
def jsonParseValue : Nat → List Char → Option (JsonValue × List Char)
  | 0, _ => none
  | n + 1, cs =>
    match skipJWs cs with
    | [] => none
    | c :: r =>
      if c = '"' then
        match parseJStringChars r with
        | some (sc, r2) => some (.str ⟨sc⟩, r2)
        | none => none
      else if c = '[' then
        let r2 := skipJWs r
        if headIs ']' r2 then some (.arr [], r2.tail)
        else
          match jsonElemsLoop (jsonParseValue n) (r2.length + 1) r2 with
          | some (vs, r3) => some (.arr vs, r3)
          | none => none
      else if c = '{' then
        let r2 := skipJWs r
        if headIs '}' r2 then some (.obj [], r2.tail)
        else
          match jsonMembersLoop (jsonParseValue n) (r2.length + 1) r2 with
          | some (ms, r3) => some (.obj ms, r3)
          | none => none
      else if c = 't' then
        match dropLit ['r', 'u', 'e'] r with
        | some r2 => some (.bool true, r2)
        | none => none
      else if c = 'f' then
        match dropLit ['a', 'l', 's', 'e'] r with
        | some r2 => some (.bool false, r2)
        | none => none
      else if c = 'n' then
        match dropLit ['u', 'l', 'l'] r with
        | some r2 => some (.null, r2)
        | none => none
      else
        match parseJNumber (c :: r) with
        | some (d, r2) => some (.num d, r2)
        | none => none

/-- Model of JSON.parse: one value, then only trailing whitespace.  A
SyntaxError is modelled as none.  The length of the input plus one
bounds the value nesting depth, so the fuel never runs out on an input
the grammar accepts. -/
def jsonParse (s : String) : Option JsonValue :=
  match jsonParseValue (s.length + 1) s.data with
  | some (v, r) =>
    match skipJWs r with
    | [] => some v
    | _ => none
  | none => none

/-! ## The parse engine -/

/-- Application of one of the simple transform functions to the value the
inner schema produced.  A raised ZodError from an inner parse call is an
error result here; the engine turns it into a thrown outcome.  Inputs
that the inner schema can never produce (for example an array reaching a
numeric transform, which sits behind z.string().or(z.number())) are
mapped to a thrown invalid type error, matching what the inner parse
call of the transform does to their string conversions. -/
def applySimpleTransform : SimpleTransform → JsonValue → Except (List Issue) JsonValue
  | .emailArrayT, .str s => (transform.emailArray s).map (fun l => .arr (l.map .str))
  | .emailArrayT, _ => .error [⟨[], .invalidType⟩]
  | .stringArrayT, .str s => (transform.stringArray s).map (fun l => .arr (l.map .str))
  | .stringArrayT, _ => .error [⟨[], .invalidType⟩]
  | .numberArrayT, .str s => (transform.numberArray s).map (fun l => .arr (l.map .num))
  | .numberArrayT, _ => .error [⟨[], .invalidType⟩]
  | .booleanT, .str s => .ok (.bool (transform.boolean s))
  | .booleanT, _ => .ok (.bool false)
  | .integerT, .str s => (transform.integer (.inl s)).map (fun n => .num (Dec.ofInt n))
  | .integerT, .num d => (transform.integer (.inr (.finite d))).map (fun n => .num (Dec.ofInt n))
  | .integerT, _ => .error [⟨[], .invalidType⟩]
  | .portT, .str s => (transform.port (.inl s)).map (fun n => .num (Dec.ofInt n))
  | .portT, .num d => (transform.port (.inr (.finite d))).map (fun n => .num (Dec.ofInt n))
  | .portT, _ => .error [⟨[], .invalidType⟩]
  | .emailT, .str s => (transform.email s).map .str
  | .emailT, _ => .error [⟨[], .invalidType⟩]
  | .domainT, .str s => (transform.domain s).map .str
  | .domainT, _ => .error [⟨[], .invalidType⟩]

/-- The zod parse step on a schema tree.  The input is an optional value:
none models an absent key (undefined), and an ok none result models an
undefined output (an absent optional field), which the object loop then
omits.  Recorded failures (fail) aggregate; thrown results abort the
whole parse.  Fuel exhaustion is a thrown result and never occurs when
the fuel exceeds the nesting depth of the schema. -/
def parseZ : Nat → ZSchema → Option JsonValue → PResult (Option JsonValue)
  | 0, _, _ => .thrown [⟨[], .fuelExhausted⟩]
  | n + 1, sch, v =>
    match sch with
    | .zstring check =>
      match v with
      | some (.str s) =>
        match check with
        | none => .ok (some (.str s))
        | some .email =>
          if zEmailCheck s then .ok (some (.str s)) else .fail [⟨[], .invalidString⟩]
        | some .domain =>
          if zDomainCheck s then .ok (some (.str s)) else .fail [⟨[], .invalidString⟩]
      | _ => .fail [⟨[], .invalidType⟩]
    | .znumber =>
      match v with
      | some (.num d) => .ok (some (.num d))
      | _ => .fail [⟨[], .invalidType⟩]
    | .zliteral lit =>
      match v with
      | some (.str s) =>
        if s == lit then .ok (some (.str s)) else .fail [⟨[], .invalidLiteral⟩]
      | _ => .fail [⟨[], .invalidLiteral⟩]
    | .zunion opts => tryOptions (parseZ n) opts v
    | .zobject shape =>
      match v with
      | some (.obj ms) =>
        match mapFields (parseZ n) shape ms with
        | .ok ps => .ok (some (.obj ps))
        | .fail is => .fail is
        | .thrown e => .thrown e
      | _ => .fail [⟨[], .invalidType⟩]
    | .zarray elemSch =>
      match v with
      | some (.arr xs) =>
        match mapElems (parseZ n) elemSch 0 xs with
        | .ok l => .ok (some (.arr l))
        | .fail is => .fail is
        | .thrown e => .thrown e
      | _ => .fail [⟨[], .invalidType⟩]
    | .ztuple items =>
      match v with
      | some (.arr xs) =>
        if xs.length < items.length then .fail [⟨[], .tooSmall⟩]
        else if items.length < xs.length then .fail [⟨[], .tooBig⟩]
        else
          match mapItems (parseZ n) 0 items xs with
          | .ok l => .ok (some (.arr l))
          | .fail is => .fail is
          | .thrown e => .thrown e
      | _ => .fail [⟨[], .invalidType⟩]
    | .zeffects inner t =>
      match parseZ n inner v with
      | .ok (some w) =>
        match applySimpleTransform t w with
        | .ok r => .ok (some r)
        | .error e => .thrown e
      | .ok none => .ok none
      | .fail is => .fail is
      | .thrown e => .thrown e
    | .zjson inner shape =>
      match parseZ n inner v with
      | .ok (some (.str s)) =>
        match jsonParse s with
        | none => .thrown [⟨[], .jsonSyntax⟩]
        | some j =>
          match
            (match j with
             | .obj ms => mapFields (parseZ n) shape ms
             | _ => PResult.fail [⟨[], .invalidType⟩]) with
          | .ok ps => .ok (some (.obj ps))
          | .fail is => .thrown is
          | .thrown e => .thrown e
      | .ok (some _) => .thrown [⟨[], .invalidType⟩]
      | .ok none => .ok none
      | .fail is => .fail is
      | .thrown e => .thrown e
    | .zoptional inner =>
      match v with
      | none => .ok none
      | some _ => parseZ n inner v
    | .zdefault inner dflt =>
      match v with
      | none => parseZ n inner (some dflt)
      | some _ => parseZ n inner v

/-! ## The schema object of the source (src/main.ts lines 68 to 210) -/

namespace schema

/-- Source schema.config: alias for z.object. -/
def config (shape : List (String × ZSchema)) : ZSchema := .zobject shape

/-- Source schema.string: alias for z.string(). -/
def string : ZSchema := .zstring none

/-- Source schema.boolean: a union of the two string literals true and
false, transformed by transform.boolean. -/
def boolean : ZSchema :=
  .zeffects (.zunion [.zliteral "true", .zliteral "false"]) .booleanT

/-- Source schema.oneOf: a union of string literal schemas, in order. -/
def oneOf (lits : List String) : ZSchema := .zunion (lits.map .zliteral)

/-- Source schema.emailArray: z.string() transformed by
transform.emailArray. -/
def emailArray : ZSchema := .zeffects (.zstring none) .emailArrayT

/-- Source schema.stringArray: z.string() transformed by
transform.stringArray. -/
def stringArray : ZSchema := .zeffects (.zstring none) .stringArrayT

/-- Source schema.numberArray: z.string() transformed by
transform.numberArray. -/
def numberArray : ZSchema := .zeffects (.zstring none) .numberArrayT

/-- Source schema.json: z.string() transformed by transform.json of the
nested shape. -/
def json (shape : List (String × ZSchema)) : ZSchema := .zjson (.zstring none) shape

/-- Source schema.integer: z.string().or(z.number()) transformed by
transform.integer. -/
def integer : ZSchema := .zeffects (.zunion [.zstring none, .znumber]) .integerT

/-- Source schema.port: z.string().or(z.number()) transformed by
transform.port. -/
def port : ZSchema := .zeffects (.zunion [.zstring none, .znumber]) .portT

/-- Source schema.email: z.string() transformed by transform.email. -/
def email : ZSchema := .zeffects (.zstring none) .emailT

/-- Source schema.domain: z.string() transformed by transform.domain. -/
def domain : ZSchema := .zeffects (.zstring none) .domainT

end schema

/-- Zod optional combinator on a field schema. -/
def ZSchema.optional (s : ZSchema) : ZSchema := .zoptional s

/-- Zod default combinator on a field schema; the stored raw default is
substituted for an absent input and then runs through the inner schema
like a present value. -/
def ZSchema.withDefault (s : ZSchema) (d : JsonValue) : ZSchema := .zdefault s d

/-- Environment mapping as a JavaScript object of string values. -/
def strEnv (env : List (String × String)) : List (String × JsonValue) :=
  env.map (fun kv => (kv.1, .str kv.2))

/-- Source parse function (src/main.ts lines 220 to 229): apply the
schema to the environment object.  The returned getter of the source is
a lookup on the parsed result and is modelled by envGetter below. -/
def parse (fuel : Nat) (sch : ZSchema) (env : List (String × String)) :
    PResult (Option JsonValue) :=
  parseZ fuel sch (some (.obj (strEnv env)))

/-- Getter returned by the source parse function: direct property access
on the already parsed result, with no re-validation. -/
def envGetter (parsed : List (String × JsonValue)) (k : String) : Option JsonValue :=
  lookupLast parsed k

/-- Model of z.object(shape).parse(v): the object parse of a structured
value, as transform.json runs it on the decoded JSON payload. -/
def zObjectParse (fuel : Nat) (shape : List (String × ZSchema)) (v : JsonValue) :
    PResult JsonValue :=
  match parseZ fuel (.zobject shape) (some v) with
  | .ok (some w) => .ok w
  | .ok none => .fail [⟨[], .invalidType⟩]
  | .fail is => .fail is
  | .thrown e => .thrown e

namespace transform

/-- Source transform.json (src/main.ts lines 23 to 27): parse the raw
string as JSON text (a SyntaxError escapes as an exception), then
validate the decoded payload against z.object of the nested shape (a
validation failure escapes as the aggregated ZodError that the inner
parse call throws). -/
def json (fuel : Nat) (shape : List (String × ZSchema)) (value : String) :
    Except (List Issue) JsonValue :=
  match jsonParse value with
  | none => .error [⟨[], .jsonSyntax⟩]
  | some j =>
    match zObjectParse fuel shape j with
    | .ok w => .ok w
    | .fail is => .error is
    | .thrown e => .error e

end transform

/-- Pipeline in the order claim C4 states it, modelled from the spec
wording: split on commas, trim surrounding whitespace from each piece
first, then strip the double quote characters.  The source
(cleanStringArray) applies the two steps in the opposite order: it strips
the quotes first and trims afterwards.  The two pipelines differ on
pieces whose quotes enclose whitespace. -/
def cleanStringArrayClaimedOrder (value : String) : List String :=
  (splitOnCharJs ',' value.data).map
    (fun cs => ⟨(jsTrimChars cs).filter (fun c => !(c = '"'))⟩)

/-- Boundary condition after a JSON number token: the next character of
the remaining input, if there is one, cannot extend the token. -/
def NumBdry (rest : List Char) : Prop :=
  ∀ c, rest.head? = some c →
    (c.isDigit = false ∧ c ≠ '.' ∧ c ≠ 'e' ∧ c ≠ 'E' ∧ c ≠ '-')


/-- Well formed structured values of bounded nesting depth: every number
is in canonical decimal form (as JSON.parse produces and as JavaScript
numbers are), and children sit one level below their parent.  This is
the invariant of values that round-trip through the JavaScript JSON
functions. -/
inductive WfJsonD : Nat → JsonValue → Prop where
  | wstr (n : Nat) (s : String) : WfJsonD (n + 1) (.str s)
  | wnum (n : Nat) (d : Dec) (hc : isCanonDec d = true) : WfJsonD (n + 1) (.num d)
  | wbool (n : Nat) (b : Bool) : WfJsonD (n + 1) (.bool b)
  | wnull (n : Nat) : WfJsonD (n + 1) .null
  | warr (n : Nat) (xs : List JsonValue) (h : ∀ x ∈ xs, WfJsonD n x) :
      WfJsonD (n + 1) (.arr xs)
  | wobj (n : Nat) (ms : List (String × JsonValue)) (h : ∀ m ∈ ms, WfJsonD n m.2) :
      WfJsonD (n + 1) (.obj ms)

/-! ## Basic lemmas -/

/-- Rebuilding a string from its character data is the identity. -/
theorem String.mk_data_eq (s : String) : (⟨s.data⟩ : String) = s := rfl

/-- The JavaScript split never returns an empty list of pieces. -/
theorem splitOnCharJs_ne_nil (sep : Char) (cs : List Char) :
    splitOnCharJs sep cs ≠ [] := by
  induction cs with
  | nil => simp [splitOnCharJs]
  | cons c t ih =>
    simp only [splitOnCharJs]
    split
    · simp
    · split
      · simp
      · simp

/-- Mapping the identity success over a list succeeds with the list. -/
theorem mapEx_pure {α : Type} (l : List α) :
    mapEx (fun s => Except.ok (ε := List Issue) s) l = .ok l := by
  induction l with
  | nil => rfl
  | cons x xs ih => simp [mapEx, ih]

/-! ## Claim C1 -/

/-- Claim C1: the spec and the doc comments of the source say the number
array transformer parses a comma separated list of decimal numerals such
as 32,42,5124 into the numbers 32, 42 and 5124.  In the code,
transform.numberArray maps z.number().parse over the string pieces that
the comma split produces, and z.number() does not coerce strings, so the
transformer throws an invalid type ZodError on every input (the split
always yields at least one piece, and every piece is a string).  This
theorem records the divergence: the first part shows the transformer
fails on every input string, the second evaluates it at the documented
example input. -/
theorem c1_numberArray_never_succeeds :
    (∀ s : String, ∃ e, transform.numberArray s = .error e) ∧
    transform.numberArray "32,42,5124" = .error [⟨[], .invalidType⟩] := by
  constructor
  · intro s
    unfold transform.numberArray cleanStringArray
    rcases h : splitOnCharJs ',' s.data with _ | ⟨p, ps⟩
    · exact absurd h (splitOnCharJs_ne_nil _ _)
    · exact ⟨[⟨[], .invalidType⟩], rfl⟩
  · rfl

/-! ## Claim C3 -/

/-- Claim C3: the port transformer succeeds exactly when the parseInt
result of its input lies in the inclusive range from 0 to 65536; the
input 465 yields 465, the input 70000 throws the too big error, and the
boundary input 65536, one above the conventional maximum port, succeeds
with 65536. -/
theorem c3_port_bounds :
    (∀ v : StrOrNum, (∃ n, transform.port v = .ok n) ↔
        (∃ n : Int, parseIntJS (jsToString v) = some n ∧ 0 ≤ n ∧ n ≤ 65536)) ∧
    transform.port (.inl "465") = .ok 465 ∧
    transform.port (.inl "70000") = .error [⟨[], .tooBig⟩] ∧
    transform.port (.inl "65536") = .ok 65536 := by
  refine ⟨fun v => ?_, rfl, rfl, rfl⟩
  unfold transform.port
  rcases h : parseIntJS (jsToString v) with _ | n
  · simp
  · simp only [Option.some.injEq]
    split_ifs with h1 h2
    · constructor
      · rintro ⟨n', hn'⟩; cases hn'
      · rintro ⟨n', rfl, hn2, hn3⟩; omega
    · constructor
      · rintro ⟨n', hn'⟩; cases hn'
      · rintro ⟨n', rfl, hn2, hn3⟩; omega
    · constructor
      · rintro ⟨n', hn'⟩
        exact ⟨n, rfl, by omega, by omega⟩
      · rintro ⟨n', rfl, hn2, hn3⟩
        exact ⟨n, rfl⟩

/-! ## Claim C4 -/

/-- Claim C4 counterexample: on the raw input consisting of a quoted
piece with a space inside the quotes, the source pipeline (strip quotes,
then trim) produces the trimmed element, while the pipeline in the order
the claim states (trim, then strip quotes) keeps the inner space, so the
claim misstates the order of the two cleaning steps. -/
theorem c4_counterexample :
    transform.stringArray "\" x\"" = .ok ["x"] ∧
    cleanStringArrayClaimedOrder "\" x\"" = [" x"] ∧
    (["x"] : List String) ≠ [" x"] := ⟨rfl, rfl, by decide⟩

/-- Claim C4 as amended: the string and email array transformers split
the raw string on commas, then strip every double quote character from
each piece, then trim surrounding whitespace, in that order, before
applying the scalar transformer; the quoted email example parses to the
three cleaned addresses. -/
theorem c4_amended_pipeline :
    (∀ s : String, transform.stringArray s =
        .ok ((splitOnCharJs ',' s.data).map
          (fun cs => (⟨jsTrimChars (cs.filter (fun c => !(c = '"')))⟩ : String)))) ∧
    transform.emailArray "email1@example.com, \"email2@example.com\", email3@example.com" =
        .ok ["email1@example.com", "email2@example.com", "email3@example.com"] := by
  refine ⟨fun s => ?_, rfl⟩
  show transform.stringArray s = .ok (cleanStringArray s)
  unfold transform.stringArray
  exact mapEx_pure _

/-! ## Claim C5 -/

/-- Claim C5: on the schema with an optional port field and an optional
boolean field with raw default false, parsing the empty environment
succeeds with exactly the object containing the defaulted boolean as the
value false: the raw default flows through the boolean transformer, and
the optional field without a default is omitted entirely (no key). -/
theorem c5_defaults_and_optional_omission :
    parse 10 (schema.config
      [("PORT", (schema.port).optional),
       ("BROWSER", ((schema.boolean).optional).withDefault (.str "false"))]) []
    = .ok (some (.obj [("BROWSER", .bool false)])) := rfl

/-! ## Claim C8 -/

/-- Claim C8: the integer and float transformers accept a string or a
number and fail exactly when the numeric parse of the string conversion
of the input is NaN; when the parse produces a value they succeed with
that value.  Concretely, integer of 15 is 15, float of 2.5 is the exact
decimal 2.5 (rational five halves), integer of abc fails, and integer of
42.9 truncates to 42 because parseInt reads only the leading digits. -/
theorem c8_integer_float_nan :
    (∀ v : StrOrNum, (∃ n, transform.integer v = .ok n) ↔
        (parseIntJS (jsToString v)).isSome = true) ∧
    (∀ v n, transform.integer v = .ok n → parseIntJS (jsToString v) = some n) ∧
    (∀ v : StrOrNum, (∃ m, transform.float v = .ok m) ↔
        (parseFloatJS (jsToString v)).isSome = true) ∧
    (∀ v m, transform.float v = .ok m → parseFloatJS (jsToString v) = some m) ∧
    transform.integer (.inl "15") = .ok 15 ∧
    transform.float (.inl "2.5") = .ok (.finite ⟨25, -1⟩) ∧
    Dec.toRat ⟨25, -1⟩ = 5 / 2 ∧
    transform.integer (.inl "abc") = .error [⟨[], .invalidType⟩] ∧
    transform.integer (.inl "42.9") = .ok 42 := by
  refine ⟨fun v => ?_, fun v n h => ?_, fun v => ?_, fun v m h => ?_, rfl, rfl, ?_, rfl, rfl⟩
  · unfold transform.integer
    rcases h : parseIntJS (jsToString v) with _ | n <;> simp
  · unfold transform.integer at h
    rcases h2 : parseIntJS (jsToString v) with _ | n' <;> rw [h2] at h
    · cases h
    · cases h; rfl
  · unfold transform.float
    rcases h : parseFloatJS (jsToString v) with _ | m <;> simp
  · unfold transform.float at h
    rcases h2 : parseFloatJS (jsToString v) with _ | m' <;> rw [h2] at h
    · cases h
    · cases h; rfl
  · rw [Dec.toRat]
    norm_num

/-- Witness for claim C8 at concrete inputs: the success implications
applied at the strings 15 and 2.5, with their hypotheses discharged by
evaluation. -/
theorem c8_witness :
    parseIntJS "15" = some 15 ∧ parseFloatJS "2.5" = some (.finite ⟨25, -1⟩) :=
  ⟨c8_integer_float_nan.2.1 (.inl "15") 15 rfl,
   c8_integer_float_nan.2.2.2.1 (.inl "2.5") (.finite ⟨25, -1⟩) rfl⟩

/-! ## Claim C10 -/

/-- Claim C10: the raw transform.boolean function is total over strings
(its embedding is a plain function into Bool and its source body is a
single strict equality, which never throws): it returns true exactly on
the literal string true and false on every other string, including
false, TRUE and 1, so by itself it rejects nothing. -/
theorem c10_transform_boolean_total :
    (∀ s : String, transform.boolean s = true ↔ s = "true") ∧
    transform.boolean "false" = false ∧
    transform.boolean "TRUE" = false ∧
    transform.boolean "1" = false ∧
    transform.boolean "arbitrary text" = false := by
  refine ⟨fun s => ?_, rfl, rfl, rfl, rfl⟩
  simp [transform.boolean]

/-! ## Claim C2, counterexample part -/

/-- Claim C2 counterexample: a schema with a port field and a boolean
field, on an input where both fields are individually invalid (the port
is 70000, the boolean is the string yes).  The port transformer throws
from inside its transform function, which aborts the parse before the
boolean field is examined: the reported failure is the thrown too big
error with an empty path, so the failure does not enumerate a per field
error for the boolean field (nor even name the port field), refuting the
claim that every invalid field is reported. -/
theorem c2_counterexample :
    (parseZ 10 schema.port (some (.str "70000"))).isThrown = true ∧
    (parseZ 10 schema.boolean (some (.str "yes"))).isFail = true ∧
    parse 10 (schema.config
        [("SMTP_PORT", schema.port), ("SMTP_SECURE", schema.boolean)])
      [("SMTP_PORT", "70000"), ("SMTP_SECURE", "yes")] = .thrown [⟨[], .tooBig⟩] ∧
    (¬ ∃ i ∈ ([⟨[], .tooBig⟩] : List Issue), i.path.head? = some (.key "SMTP_SECURE")) ∧
    (¬ ∃ i ∈ ([⟨[], .tooBig⟩] : List Issue), i.path.head? = some (.key "SMTP_PORT")) :=
  ⟨rfl, rfl, rfl, by decide, by decide⟩

/-! ## Claim C6 -/

/-- Claim C6: the boolean field schema (a union of the two string
literals transformed by transform.boolean) succeeds exactly on the
case sensitive literals true and false, mapping them to the booleans,
and records an invalid union failure on every other string.  Stated for
every fuel beyond the nesting depth of the schema. -/
theorem c6_schema_boolean :
    ∀ (n : Nat) (s : String),
      parseZ (n + 3) schema.boolean (some (.str s)) =
        if s = "true" then .ok (some (.bool true))
        else if s = "false" then .ok (some (.bool false))
        else .fail [⟨[], .invalidUnion⟩] := by
  intro n s
  by_cases h1 : s = "true"
  · subst h1; rfl
  · by_cases h2 : s = "false"
    · subst h2; rfl
    · rw [if_neg h1, if_neg h2]
      have e1 : (s == "true") = false := by simp [h1]
      have e2 : (s == "false") = false := by simp [h2]
      simp [parseZ, schema.boolean, tryOptions, e1, e2]

/-! ## Claim C7 -/

/-- Folding a lookup from an arbitrary accumulator: the last matching
entry wins, falling back to the accumulator. -/
theorem lookupLast_foldl {α : Type} (l : List (String × α)) (k : String)
    (acc : Option α) :
    l.foldl (fun a kv => if kv.1 == k then some kv.2 else a) acc =
      (lookupLast l k).elim acc some := by
  induction l generalizing acc with
  | nil => rfl
  | cons kv t ih =>
    show List.foldl _ (if kv.1 == k then some kv.2 else acc) t = _
    rw [ih]
    show _ = (List.foldl _ (if kv.1 == k then some kv.2 else none) t).elim acc some
    rw [ih]
    rcases lookupLast t k with _ | x
    · simp only [Option.elim]
      rcases kv.1 == k with _ | _ <;> rfl
    · rfl

/-- Cons step of the object lookup. -/
theorem lookupLast_cons {α : Type} (a : String) (b : α) (t : List (String × α))
    (k : String) :
    lookupLast ((a, b) :: t) k =
      (lookupLast t k).elim (if a == k then some b else none) some := by
  show List.foldl _ (if a == k then some b else none) t = _
  exact lookupLast_foldl t k _

/-- A cons entry with a different key does not affect the lookup. -/
theorem lookupLast_cons_ne {α : Type} {a k : String} (b : α)
    (t : List (String × α)) (h : (a == k) = false) :
    lookupLast ((a, b) :: t) k = lookupLast t k := by
  rw [lookupLast_cons, h]
  rcases lookupLast t k with _ | x <;> rfl

/-- Lookup in the string environment object wraps the raw lookup. -/
theorem lookupLast_strEnv (env : List (String × String)) (k : String) :
    lookupLast (strEnv env) k = (lookupLast env k).map .str := by
  induction env with
  | nil => rfl
  | cons kv t ih =>
    obtain ⟨a, b⟩ := kv
    show lookupLast ((a, .str b) :: strEnv t) k = _
    rw [lookupLast_cons, lookupLast_cons, ih]
    rcases lookupLast t k with _ | x
    · rcases h : a == k with _ | _ <;> simp
    · rfl

/-- The object field loop reads the input only at the declared keys. -/
theorem mapFields_congr (p : ZSchema → Option JsonValue → PResult (Option JsonValue))
    (shape : List (String × ZSchema)) (ms1 ms2 : List (String × JsonValue))
    (h : ∀ k ∈ shape.map Prod.fst, lookupLast ms1 k = lookupLast ms2 k) :
    mapFields p shape ms1 = mapFields p shape ms2 := by
  induction shape with
  | nil => rfl
  | cons kv tl ih =>
    obtain ⟨k, sch⟩ := kv
    have hk : lookupLast ms1 k = lookupLast ms2 k := h k (by simp)
    have htl := ih (fun k' hk' => h k' (by simp [hk'])) 
    simp only [mapFields, hk, htl]

/-- Claim C7: the parse outcome depends only on the input values at the
keys the schema declares; in particular, prepending an entry whose key
the schema does not declare never changes the outcome (so unknown keys
never cause a failure and never alter the result). -/
theorem c7_unknown_keys :
    (∀ (fuel : Nat) (shape : List (String × ZSchema))
        (env1 env2 : List (String × String)),
        (∀ k ∈ shape.map Prod.fst, lookupLast env1 k = lookupLast env2 k) →
        parse fuel (.zobject shape) env1 = parse fuel (.zobject shape) env2) ∧
    (∀ (fuel : Nat) (shape : List (String × ZSchema))
        (env : List (String × String)) (k v : String),
        k ∉ shape.map Prod.fst →
        parse fuel (.zobject shape) ((k, v) :: env) =
          parse fuel (.zobject shape) env) := by
  have main : ∀ (fuel : Nat) (shape : List (String × ZSchema))
      (env1 env2 : List (String × String)),
      (∀ k ∈ shape.map Prod.fst, lookupLast env1 k = lookupLast env2 k) →
      parse fuel (.zobject shape) env1 = parse fuel (.zobject shape) env2 := by
    intro fuel shape env1 env2 h
    cases fuel with
    | zero => rfl
    | succ n =>
      show parseZ (n + 1) _ _ = parseZ (n + 1) _ _
      simp only [parseZ]
      rw [mapFields_congr (parseZ n) shape (strEnv env1) (strEnv env2)]
      intro k hk
      rw [lookupLast_strEnv, lookupLast_strEnv, h k hk]
  refine ⟨main, fun fuel shape env k v hk => main _ _ _ _ ?_⟩
  intro k' hk'
  refine lookupLast_cons_ne v env ?_
  simp only [beq_eq_false_iff_ne, ne_eq]
  rintro rfl
  exact hk hk'

/-- Witness for claim C7: a concrete schema with one declared field and
an input that adds an undeclared extra entry; the theorem applies with
its agreement hypothesis discharged by evaluation. -/
theorem c7_witness :
    parse 10 (.zobject [("X", schema.string)]) [("X", "v")] =
      parse 10 (.zobject [("X", schema.string)]) [("X", "v"), ("EXTRA", "w")] :=
  c7_unknown_keys.1 10 [("X", schema.string)] [("X", "v")]
    [("X", "v"), ("EXTRA", "w")] (by decide)

/-! ## Claim C2, amended part -/

/-- A recorded union failure always carries at least one issue. -/
theorem tryOptions_fail_ne (p : ZSchema → Option JsonValue → PResult (Option JsonValue))
    (opts : List ZSchema) (v : Option JsonValue) (is : List Issue)
    (h : tryOptions p opts v = .fail is) : is ≠ [] := by
  induction opts with
  | nil =>
    simp only [tryOptions, PResult.fail.injEq] at h
    subst h; simp
  | cons o os ih =>
    simp only [tryOptions] at h
    rcases hp : p o v with r | e | e <;> rw [hp] at h
    · cases h
    · exact ih h
    · cases h

/-- A recorded object loop failure carries at least one issue, provided
the field parser never records an empty failure. -/
theorem mapFields_fail_ne (p : ZSchema → Option JsonValue → PResult (Option JsonValue))
    (hp : ∀ sch w is', p sch w = .fail is' → is' ≠ [])
    (shape : List (String × ZSchema)) (ms : List (String × JsonValue))
    (is : List Issue) (h : mapFields p shape ms = .fail is) : is ≠ [] := by
  induction shape generalizing is with
  | nil => cases h
  | cons kv tl ih =>
    obtain ⟨k, sch⟩ := kv
    simp only [mapFields] at h
    rcases hr : p sch (lookupLast ms k) with w | is1 | e <;> rw [hr] at h
    · rcases htl : mapFields p tl ms with l | is2 | e <;> rw [htl] at h
      · rcases w with _ | x <;> cases h
      · cases h; exact ih _ htl
      · cases h
    · have h1 := hp _ _ _ hr
      rcases htl : mapFields p tl ms with l | is2 | e <;> rw [htl] at h
      · cases h
        simp only [ne_eq, List.map_eq_nil_iff]
        exact h1
      · cases h
        simp only [ne_eq, List.append_eq_nil, List.map_eq_nil_iff]
        rintro ⟨h2, _⟩
        exact h1 h2
      · cases h
    · cases h

/-- A recorded array loop failure carries at least one issue, under the
same assumption. -/
theorem mapElems_fail_ne (p : ZSchema → Option JsonValue → PResult (Option JsonValue))
    (hp : ∀ sch w is', p sch w = .fail is' → is' ≠ [])
    (sch : ZSchema) (xs : List JsonValue) (i : Nat)
    (is : List Issue) (h : mapElems p sch i xs = .fail is) : is ≠ [] := by
  induction xs generalizing i is with
  | nil => cases h
  | cons x t ih =>
    simp only [mapElems] at h
    rcases hr : p sch (some x) with w | is1 | e <;> rw [hr] at h
    · rcases htl : mapElems p sch (i + 1) t with l | is2 | e <;> rw [htl] at h
      · cases h
      · cases h; exact ih _ _ htl
      · cases h
    · have h1 := hp _ _ _ hr
      rcases htl : mapElems p sch (i + 1) t with l | is2 | e <;> rw [htl] at h
      · cases h
        simp only [ne_eq, List.map_eq_nil_iff]
        exact h1
      · cases h
        simp only [ne_eq, List.append_eq_nil, List.map_eq_nil_iff]
        rintro ⟨h2, _⟩
        exact h1 h2
      · cases h
    · cases h

/-- A recorded tuple loop failure carries at least one issue, under the
same assumption. -/
theorem mapItems_fail_ne (p : ZSchema → Option JsonValue → PResult (Option JsonValue))
    (hp : ∀ sch w is', p sch w = .fail is' → is' ≠ [])
    (schs : List ZSchema) (xs : List JsonValue) (i : Nat)
    (is : List Issue) (h : mapItems p i schs xs = .fail is) : is ≠ [] := by
  induction schs generalizing xs i is with
  | nil => simp only [mapItems] at h; cases h
  | cons sch t ih =>
    rcases xs with _ | ⟨x, xt⟩
    · cases h
    simp only [mapItems] at h
    rcases hr : p sch (some x) with w | is1 | e <;> rw [hr] at h
    · rcases htl : mapItems p i.succ t xt with l | is2 | e <;> rw [htl] at h
      · cases h
      · cases h; exact ih _ _ _ htl
      · cases h
    · have h1 := hp _ _ _ hr
      rcases htl : mapItems p i.succ t xt with l | is2 | e <;> rw [htl] at h
      · cases h
        simp only [ne_eq, List.map_eq_nil_iff]
        exact h1
      · cases h
        simp only [ne_eq, List.append_eq_nil, List.map_eq_nil_iff]
        rintro ⟨h2, _⟩
        exact h1 h2
      · cases h
    · cases h

/-- Every recorded parse failure carries at least one issue. -/
theorem parseZ_fail_ne (n : Nat) :
    ∀ (sch : ZSchema) (v : Option JsonValue) (is : List Issue),
      parseZ n sch v = .fail is → is ≠ [] := by
  induction n with
  | zero => intro sch v is h; cases h
  | succ n ih =>
    intro sch v is h
    cases sch with
    | zstring check =>
      rcases v with _ | ⟨v⟩
      · cases h; simp
      rcases v with s | d | b | _ | xs | ms <;>
        first
        | (cases h; simp)
        | (rcases check with _ | ⟨_ | _⟩
           · cases h
           · simp only [parseZ] at h
             split at h <;> (try cases h) <;> simp
           · simp only [parseZ] at h
             split at h <;> (try cases h) <;> simp)
    | znumber =>
      rcases v with _ | ⟨v⟩
      · cases h; simp
      rcases v with s | d | b | _ | xs | ms <;> (try (cases h; simp))
      cases h
    | zliteral lit =>
      rcases v with _ | ⟨v⟩
      · cases h; simp
      rcases v with s | d | b | _ | xs | ms <;> (try (cases h; simp))
      simp only [parseZ] at h
      split at h <;> (try cases h) <;> simp
    | zunion opts => exact tryOptions_fail_ne _ _ _ _ h
    | zobject shape =>
      rcases v with _ | ⟨v⟩
      · cases h; simp
      rcases v with s | d | b | _ | xs | ms <;> (try (cases h; simp))
      simp only [parseZ] at h
      rcases hm : mapFields (parseZ n) shape ms with l | is2 | e <;> rw [hm] at h
      · cases h
      · cases h; exact mapFields_fail_ne _ (ih) _ _ _ hm
      · cases h
    | zarray elemSch =>
      rcases v with _ | ⟨v⟩
      · cases h; simp
      rcases v with s | d | b | _ | xs | ms <;> (try (cases h; simp))
      simp only [parseZ] at h
      rcases hm : mapElems (parseZ n) elemSch 0 xs with l | is2 | e <;> rw [hm] at h
      · cases h
      · cases h; exact mapElems_fail_ne _ (ih) _ _ _ _ hm
      · cases h
    | ztuple items =>
      rcases v with _ | ⟨v⟩
      · cases h; simp
      rcases v with s | d | b | _ | xs | ms <;> (try (cases h; simp))
      simp only [parseZ] at h
      split at h
      · cases h; simp
      split at h
      · cases h; simp
      rcases hm : mapItems (parseZ n) 0 items xs with l | is2 | e <;> rw [hm] at h
      · cases h
      · cases h; exact mapItems_fail_ne _ (ih) _ _ _ _ hm
      · cases h
    | zeffects inner t =>
      simp only [parseZ] at h
      rcases hr : parseZ n inner v with w | is1 | e <;> rw [hr] at h
      · rcases w with _ | w
        · cases h
        rcases ha : applySimpleTransform t w with r | e <;> simp [ha] at h
      · cases h; exact ih _ _ _ hr
      · cases h
    | zjson inner shape =>
      simp only [parseZ] at h
      rcases hr : parseZ n inner v with w | is1 | e <;> rw [hr] at h
      · rcases w with _ | w
        · cases h
        rcases w with s | d | b | _ | xs | ms
        case str =>
          rcases hj : jsonParse s with _ | j <;> simp only [hj] at h
          · cases h
          · rcases j with s2 | d | b | _ | xs | ms2
            case obj =>
              rcases hm : mapFields (parseZ n) shape ms2 with l | is2 | e <;>
                simp only [hm] at h <;> cases h
            all_goals (simp only [] at h; cases h)
        all_goals (simp only [] at h; cases h)
      · cases h; exact ih _ _ _ hr
      · cases h
    | zoptional inner =>
      rcases v with _ | ⟨v⟩
      · cases h
      · exact ih _ _ _ h
    | zdefault inner dflt =>
      rcases v with _ | ⟨v⟩
      · exact ih _ _ _ h
      · exact ih _ _ _ h

/-- When no field throws, the object loop does not throw. -/
theorem mapFields_not_thrown (p : ZSchema → Option JsonValue → PResult (Option JsonValue))
    (shape : List (String × ZSchema)) (ms : List (String × JsonValue))
    (hnt : ∀ q ∈ shape, (p q.2 (lookupLast ms q.1)).isThrown = false) :
    (mapFields p shape ms).isThrown = false := by
  induction shape with
  | nil => rfl
  | cons kv tl ih =>
    obtain ⟨k, sch⟩ := kv
    have h1 := hnt (k, sch) (by simp)
    have h2 := ih (fun q hq => hnt q (by simp [hq]))
    simp only [mapFields]
    rcases hr : p sch (lookupLast ms k) with w | is1 | e
    · rcases htl : mapFields p tl ms with l | is2 | e
      · rcases w with _ | x <;> rfl
      · rfl
      · rw [htl] at h2; cases h2
    · rcases htl : mapFields p tl ms with l | is2 | e
      · rfl
      · rfl
      · rw [htl] at h2; cases h2
    · rw [hr] at h1; cases h1

/-- When the object loop succeeds, no field records a failure. -/
theorem mapFields_ok_no_fail (p : ZSchema → Option JsonValue → PResult (Option JsonValue))
    (shape : List (String × ZSchema)) (ms : List (String × JsonValue))
    (l : List (String × JsonValue)) (h : mapFields p shape ms = .ok l) :
    ∀ q ∈ shape, (p q.2 (lookupLast ms q.1)).isFail = false := by
  induction shape generalizing l with
  | nil => intro q hq; cases hq
  | cons kv tl ih =>
    obtain ⟨k, sch⟩ := kv
    intro q hq
    simp only [mapFields] at h
    rcases hr : p sch (lookupLast ms k) with w | is1 | e <;> rw [hr] at h
    · rcases htl : mapFields p tl ms with l2 | is2 | e <;> rw [htl] at h
      · rcases List.mem_cons.mp hq with rfl | hq2
        · simp [hr, PResult.isFail]
        · exact ih _ htl q hq2
      · rcases w with _ | x <;> cases h
      · rcases w with _ | x <;> cases h
    · rcases htl : mapFields p tl ms with l2 | is2 | e <;> rw [htl] at h <;> cases h
    · cases h

/-- When the object loop records a failure, some field records one. -/
theorem mapFields_fail_exists (p : ZSchema → Option JsonValue → PResult (Option JsonValue))
    (shape : List (String × ZSchema)) (ms : List (String × JsonValue))
    (is : List Issue) (h : mapFields p shape ms = .fail is) :
    ∃ q ∈ shape, (p q.2 (lookupLast ms q.1)).isFail = true := by
  induction shape generalizing is with
  | nil => cases h
  | cons kv tl ih =>
    obtain ⟨k, sch⟩ := kv
    simp only [mapFields] at h
    rcases hr : p sch (lookupLast ms k) with w | is1 | e <;> rw [hr] at h
    · rcases htl : mapFields p tl ms with l2 | is2 | e <;> rw [htl] at h
      · rcases w with _ | x <;> cases h
      · obtain ⟨q, hq, hfq⟩ := ih _ htl
        exact ⟨q, by simp [hq], hfq⟩
      · cases h
    · exact ⟨(k, sch), by simp, by simp [hr, PResult.isFail]⟩
    · cases h

/-- Aggregation of the object loop: when no field throws and at least
one field records a failure, the loop records a failure whose issue list
contains, for every failing field, an issue whose path starts with that
field key. -/
theorem mapFields_aggregates (p : ZSchema → Option JsonValue → PResult (Option JsonValue))
    (hpne : ∀ sch w is', p sch w = .fail is' → is' ≠ [])
    (shape : List (String × ZSchema)) (ms : List (String × JsonValue))
    (hnt : ∀ q ∈ shape, (p q.2 (lookupLast ms q.1)).isThrown = false)
    (hex : ∃ q ∈ shape, (p q.2 (lookupLast ms q.1)).isFail = true) :
    ∃ is, mapFields p shape ms = .fail is ∧
      ∀ q ∈ shape, (p q.2 (lookupLast ms q.1)).isFail = true →
        ∃ i ∈ is, i.path.head? = some (.key q.1) := by
  induction shape with
  | nil => obtain ⟨q, hq, _⟩ := hex; cases hq
  | cons kv tl ih =>
    obtain ⟨k, sch⟩ := kv
    have hnt_head := hnt (k, sch) (by simp)
    have hnt_tl : ∀ q ∈ tl, (p q.2 (lookupLast ms q.1)).isThrown = false :=
      fun q hq => hnt q (by simp [hq])
    have htl_nt := mapFields_not_thrown p tl ms hnt_tl
    rcases hr : p sch (lookupLast ms k) with w | is1 | e
    · -- head field succeeded; the failing field is in the tail
      have hex_tl : ∃ q ∈ tl, (p q.2 (lookupLast ms q.1)).isFail = true := by
        obtain ⟨q, hq, hfq⟩ := hex
        rcases List.mem_cons.mp hq with rfl | hq2
        · rw [hr] at hfq; cases hfq
        · exact ⟨q, hq2, hfq⟩
      obtain ⟨is2, htl, hprop⟩ := ih hnt_tl hex_tl
      refine ⟨is2, ?_, ?_⟩
      · simp only [mapFields, hr, htl]
      · intro q hq hfq
        rcases List.mem_cons.mp hq with rfl | hq2
        · rw [hr] at hfq; cases hfq
        · exact hprop q hq2 hfq
    · -- head field recorded a failure
      have h1ne := hpne _ _ _ hr
      rcases htl : mapFields p tl ms with l2 | is2 | e
      · -- tail succeeded: result is the tagged head issues
        refine ⟨is1.map (tagKey k), by simp only [mapFields, hr, htl], ?_⟩
        intro q hq hfq
        rcases List.mem_cons.mp hq with rfl | hq2
        · rcases is1 with _ | ⟨i0, it⟩
          · exact absurd rfl h1ne
          · exact ⟨tagKey k i0, by simp, rfl⟩
        · have := mapFields_ok_no_fail p tl ms l2 htl q hq2
          rw [hfq] at this; cases this
      · -- tail also failed: issues are appended
        have hex_tl := mapFields_fail_exists p tl ms is2 htl
        obtain ⟨is2', htl', hprop⟩ := ih hnt_tl hex_tl
        rw [htl] at htl'
        cases htl'
        refine ⟨is1.map (tagKey k) ++ is2, by simp only [mapFields, hr, htl], ?_⟩
        intro q hq hfq
        rcases List.mem_cons.mp hq with rfl | hq2
        · rcases is1 with _ | ⟨i0, it⟩
          · exact absurd rfl h1ne
          · exact ⟨tagKey k i0, by simp, rfl⟩
        · obtain ⟨i, hi, hip⟩ := hprop q hq2 hfq
          exact ⟨i, by simp [hi], hip⟩
      · rw [htl] at htl_nt; cases htl_nt
    · rw [hr] at hnt_head; cases hnt_head

/-- Claim C2 as amended: when every invalid field fails through the
recorded validation channel (no transformer exception), the parse of the
object schema fails with no partial result, aggregating an issue whose
path names the field for every field that failed, not only the first. -/
theorem c2_amended (n : Nat) (shape : List (String × ZSchema))
    (env : List (String × String))
    (hnt : ∀ q ∈ shape, (parseZ n q.2 (lookupLast (strEnv env) q.1)).isThrown = false)
    (hex : ∃ q ∈ shape, (parseZ n q.2 (lookupLast (strEnv env) q.1)).isFail = true) :
    ∃ is, parse (n + 1) (.zobject shape) env = .fail is ∧
      ∀ q ∈ shape, (parseZ n q.2 (lookupLast (strEnv env) q.1)).isFail = true →
        ∃ i ∈ is, i.path.head? = some (.key q.1) := by
  obtain ⟨is, heq, hprop⟩ :=
    mapFields_aggregates (parseZ n) (fun sch w is' => parseZ_fail_ne n sch w is')
      shape (strEnv env) hnt hex
  refine ⟨is, ?_, hprop⟩
  show parseZ (n + 1) _ _ = _
  simp only [parseZ, heq]

/-- Witness for claim C2 as amended: two boolean fields, both invalid;
the parse fails and reports an issue naming each of the two fields. -/
theorem c2_amended_witness :
    ∃ is, parse 11 (.zobject [("A", schema.boolean), ("B", schema.boolean)])
        [("A", "x"), ("B", "y")] = .fail is ∧
      ∀ q ∈ [("A", schema.boolean), ("B", schema.boolean)],
        (parseZ 10 q.2 (lookupLast (strEnv [("A", "x"), ("B", "y")]) q.1)).isFail = true →
          ∃ i ∈ is, i.path.head? = some (.key q.1) :=
  c2_amended 10 [("A", schema.boolean), ("B", schema.boolean)]
    [("A", "x"), ("B", "y")] (by decide) (by decide)


/-! ## Claim C9: canonical decimal and digit rendering lemmas -/

theorem canonRec_self (d : Dec) (h : isCanonDec d = true) (hm : d.mant ≠ 0) :
    ∀ f, canonRec f d = d := by
  intro f
  rcases f with _ | f
  · rfl
  · show (if d.mant ≠ 0 ∧ d.mant % 10 = 0 then _ else _) = _
    rw [if_neg]
    rintro ⟨h1, h2⟩
    rw [isCanonDec, if_neg hm] at h
    simp at h
    exact h (Int.dvd_of_emod_eq_zero h2)

theorem canonDec_self (d : Dec) (h : isCanonDec d = true) : canonDec d = d := by
  rw [canonDec]
  by_cases hm : d.mant = 0
  · rw [if_pos hm]
    rw [isCanonDec, if_pos hm] at h
    simp at h
    rcases d with ⟨m, e⟩
    simp_all
  · rw [if_neg hm]
    exact canonRec_self d h hm _

theorem canonRec_strip (m : Int) (hm : m ≠ 0) (hdvd : ¬ (10 ∣ m)) :
    ∀ (e : Nat) (x : Int) (f : Nat), (m * 10 ^ e).natAbs ≤ f →
      canonRec f ⟨m * 10 ^ e, x⟩ = ⟨m, x + e⟩ := by
  intro e
  induction e with
  | zero =>
    intro x f _
    have h1 : canonRec f ⟨m, x⟩ = ⟨m, x⟩ := by
      refine canonRec_self ⟨m, x⟩ ?_ hm f
      rw [isCanonDec, if_neg hm]
      simp only [decide_eq_true_eq, decide_not, Bool.not_eq_true']
      rw [decide_eq_false_iff_not]
      intro h2
      exact hdvd (Int.dvd_of_emod_eq_zero h2)
    have h2 : (⟨m * 10 ^ 0, x⟩ : Dec) = ⟨m, x⟩ := by norm_num
    rw [h2, h1]
    simp
  | succ e ih =>
    intro x f hf
    have hne2 : m * 10 ^ e ≠ 0 := mul_ne_zero hm (pow_ne_zero _ (by norm_num))
    have hne : m * 10 ^ (e + 1) ≠ 0 := mul_ne_zero hm (pow_ne_zero _ (by norm_num))
    have habs : (m * 10 ^ (e + 1)).natAbs = 10 * (m * 10 ^ e).natAbs := by
      rw [pow_succ, show m * (10 ^ e * 10) = (m * 10 ^ e) * 10 by ring, Int.natAbs_mul]
      simp [Nat.mul_comm]
    have habs' : 1 ≤ (m * 10 ^ e).natAbs := by
      have := Int.natAbs_ne_zero.mpr hne2
      omega
    rcases f with _ | f
    · omega
    · have hmod : m * 10 ^ (e + 1) % 10 = 0 :=
        Int.emod_eq_zero_of_dvd ⟨m * 10 ^ e, by ring⟩
      show (if m * 10 ^ (e + 1) ≠ 0 ∧ m * 10 ^ (e + 1) % 10 = 0 then _ else _) = _
      rw [if_pos ⟨hne, hmod⟩]
      have hdiv : m * 10 ^ (e + 1) / 10 = m * 10 ^ e := by
        rw [pow_succ, show m * (10 ^ e * 10) = (m * 10 ^ e) * 10 by ring]
        exact Int.mul_ediv_cancel _ (by norm_num)
      show canonRec f ⟨m * 10 ^ (e + 1) / 10, x + 1⟩ = _
      rw [hdiv, ih (x + 1) f (by omega)]
      congr 1
      push_cast
      ring

theorem canonRec_strip' (m : Int) (hm : m ≠ 0) (hdvd : ¬ (10 ∣ m)) (e : Nat) (x : Int) :
    canonDec ⟨m * 10 ^ e, x⟩ = ⟨m, x + e⟩ := by
  rw [canonDec, if_neg (mul_ne_zero hm (pow_ne_zero _ (by norm_num)))]
  exact canonRec_strip m hm hdvd e x _ le_rfl

theorem digitsValN_foldl (cs : List Char) (acc : Nat) :
    cs.foldl (fun a c => a * 10 + digitVal c) acc =
      acc * 10 ^ cs.length + digitsValN cs := by
  induction cs generalizing acc with
  | nil => simp [digitsValN]
  | cons c t ih =>
    show List.foldl _ (acc * 10 + digitVal c) t = _
    rw [ih]
    have h2 : digitsValN (c :: t) = digitVal c * 10 ^ t.length + digitsValN t := by
      show List.foldl _ (0 * 10 + digitVal c) t = _
      rw [ih]
      ring_nf
    rw [h2]
    simp [List.length_cons, pow_succ]
    ring

theorem digitsValN_append (a b : List Char) :
    digitsValN (a ++ b) = digitsValN a * 10 ^ b.length + digitsValN b := by
  show List.foldl _ 0 (a ++ b) = _
  rw [List.foldl_append]
  have : List.foldl (fun a c => a * 10 + digitVal c) 0 a = digitsValN a := rfl
  rw [this, digitsValN_foldl]

theorem digitsValN_replicate_zero (z : Nat) :
    digitsValN (List.replicate z '0') = 0 := by
  induction z with
  | zero => rfl
  | succ z ih =>
    rw [List.replicate_succ]
    show List.foldl _ (0 * 10 + digitVal '0') _ = 0
    have h0 : digitVal '0' = 0 := rfl
    rw [h0]
    simpa [digitsValN] using ih

theorem digitVal_digitChar (d : Nat) (h : d < 10) : digitVal (digitChar d) = d := by
  interval_cases d <;> rfl

theorem isDigit_digitChar (d : Nat) (h : d < 10) : (digitChar d).isDigit = true := by
  interval_cases d <;> rfl

theorem foldlNat_rev_digits (n : Nat) :
    ∀ acc, (Nat.digits 10 n).reverse.foldl (fun a d => a * 10 + d) acc =
      acc * 10 ^ (Nat.digits 10 n).length + n := by
  induction n using Nat.strong_induction_on with
  | _ n ih =>
    intro acc
    by_cases h : n = 0
    · subst h; simp
    · rw [Nat.digits_def' (by norm_num : (1 : ℕ) < 10) (Nat.pos_of_ne_zero h)]
      rw [List.reverse_cons, List.foldl_append]
      rcases Nat.eq_zero_or_pos (n / 10) with h10 | h10
      · rw [h10]
        simp only [Nat.digits_zero, List.reverse_nil, List.foldl_nil, List.length_cons,
          List.length_nil, List.foldl_cons]
        have h5 : n % 10 = n := by omega
        rw [h5]
        ring_nf
      · rw [ih (n / 10) (by omega) acc]
        simp only [List.foldl_cons, List.foldl_nil, List.length_cons]
        rw [pow_succ]
        have hdm := Nat.div_add_mod n 10
        ring_nf
        omega

theorem digitsValN_renderNat (n : Nat) : digitsValN (renderNat n) = n := by
  rw [renderNat]
  by_cases h : n = 0
  · subst h; rfl
  · rw [if_neg h]
    show List.foldl _ 0 _ = n
    rw [List.foldl_map]
    have hcong : ∀ (L : List Nat) (acc : Nat), (∀ d ∈ L, d < 10) →
        L.foldl (fun a d => a * 10 + digitVal (digitChar d)) acc =
          L.foldl (fun a d => a * 10 + d) acc := by
      intro L
      induction L with
      | nil => intro acc _; rfl
      | cons d t iht =>
        intro acc hall
        show List.foldl _ (acc * 10 + digitVal (digitChar d)) t = _
        rw [digitVal_digitChar d (hall d (by simp)), iht _ (fun x hx => hall x (by simp [hx]))]
        rfl
    rw [hcong _ 0 (fun d hd => Nat.digits_lt_base (by norm_num) (List.mem_reverse.mp hd))]
    rw [foldlNat_rev_digits n 0]
    simp

theorem renderNat_all_digits (n : Nat) : ∀ c ∈ renderNat n, c.isDigit = true := by
  rw [renderNat]
  by_cases h : n = 0
  · subst h; intro c hc; simp at hc; subst hc; rfl
  · rw [if_neg h]
    intro c hc
    obtain ⟨d, hd, rfl⟩ := List.mem_map.mp hc
    exact isDigit_digitChar d (Nat.digits_lt_base (by norm_num) (List.mem_reverse.mp hd))

theorem renderNat_ne_nil (n : Nat) : renderNat n ≠ [] := by
  rw [renderNat]
  by_cases h : n = 0
  · simp [h]
  · rw [if_neg h]
    simp [h, Nat.digits_ne_nil_iff_ne_zero]

theorem renderNat_head_ne_zero (n : Nat) (h : n ≠ 0) :
    ∀ c, (renderNat n).head? = some c → c ≠ '0' := by
  rw [renderNat, if_neg h]
  intro c hc
  rw [List.head?_map, List.head?_reverse] at hc
  obtain ⟨d, hd, rfl⟩ := Option.map_eq_some'.mp hc
  have hne : Nat.digits 10 n ≠ [] := Nat.digits_ne_nil_iff_ne_zero.mpr h
  have hlast : d = (Nat.digits 10 n).getLast hne := by
    have := List.getLast?_eq_getLast (Nat.digits 10 n) hne
    rw [this] at hd
    exact (Option.some.injEq _ _ ▸ hd).symm
  have hd0 : d ≠ 0 := by rw [hlast]; exact Nat.getLast_digit_ne_zero 10 h
  have hd10 : d < 10 := by
    have hmem : d ∈ Nat.digits 10 n := by
      rw [hlast]
      exact List.getLast_mem hne
    exact Nat.digits_lt_base (by norm_num) hmem
  clear hlast hd hc hne
  interval_cases d
  · exact absurd rfl hd0
  all_goals decide
/-! ## JSON text round-trip (claim C9) -/

theorem takeWhile_append_all (p : Char → Bool) (ds rest : List Char)
    (hds : ∀ c ∈ ds, p c = true)
    (hrest : ∀ c, rest.head? = some c → p c = false) :
    (ds ++ rest).takeWhile p = ds ∧ (ds ++ rest).dropWhile p = rest := by
  induction ds with
  | nil =>
    rcases rest with _ | ⟨c, t⟩
    · exact ⟨rfl, rfl⟩
    · have := hrest c rfl
      simp [List.takeWhile_cons, List.dropWhile_cons, this]
  | cons c t ih =>
    have hc := hds c (by simp)
    have ht := ih (fun x hx => hds x (by simp [hx]))
    simp [List.takeWhile_cons, List.dropWhile_cons, hc, ht.1, ht.2]

theorem replicate_zero_all_digits (z : Nat) :
    ∀ c ∈ List.replicate z '0', c.isDigit = true := by
  intro c hc
  rw [List.eq_of_mem_replicate hc]
  rfl

/-- Condition on the characters that may follow an encoded number. -/
theorem headIs_false_of_numBdry {ch : Char} (rest : List Char) (h : NumBdry rest)
    (hch : ch.isDigit = true ∨ ch = '.' ∨ ch = 'e' ∨ ch = 'E' ∨ ch = '-') :
    headIs ch rest = false := by
  rcases rest with _ | ⟨c, t⟩
  · rfl
  · obtain ⟨h1, h2, h3, h4, h5⟩ := h c rfl
    show decide (c = ch) = false
    rw [decide_eq_false_iff_not]
    rintro rfl
    rcases hch with hd | rfl | rfl | rfl | rfl
    · rw [h1] at hd; cases hd
    · exact h2 rfl
    · exact h3 rfl
    · exact h4 rfl
    · exact h5 rfl

theorem parseJExp_no_exp (sign : Int) (ids fds : List Char) (rest : List Char)
    (h : NumBdry rest) :
    parseJExp sign ids fds rest = some (decOfParts sign ids fds 0, rest) := by
  rw [parseJExp]
  rw [headIs_false_of_numBdry rest h (by right; right; left; rfl),
      headIs_false_of_numBdry rest h (by right; right; right; left; rfl)]
  rfl

theorem digit_ne_minus {c : Char} (h : c.isDigit = true) : (decide (c = '-')) = false := by
  rw [decide_eq_false_iff_not]
  rintro rfl
  cases h

theorem digit_ne_dot {c : Char} (h : c.isDigit = true) : c ≠ '.' := by
  rintro rfl
  cases h

/-- Shape lemma: the number token parser on a well formed rendered
number (optional minus, nonempty digits without a spurious leading zero,
optional nonempty fraction digits, then a boundary) returns the
assembled decimal and the boundary remainder. -/
theorem parseJNumber_shape (neg : Bool) (ids fds rest : List Char)
    (hids_ne : ids ≠ [])
    (hids_dig : ∀ c ∈ ids, c.isDigit = true)
    (hlz : ids.length = 1 ∨ (∀ c, ids.head? = some c → c ≠ '0'))
    (hfds_dig : ∀ c ∈ fds, c.isDigit = true)
    (hrest : NumBdry rest) :
    parseJNumber ((if neg then ['-'] else []) ++
        (ids ++ ((if fds = [] then [] else '.' :: fds) ++ rest))) =
      some (decOfParts (if neg then -1 else 1) ids fds 0, rest) := by
  have hfrac_head : ∀ c, ((if fds = [] then [] else '.' :: fds) ++ rest).head? = some c →
      Char.isDigit c = false := by
    intro c hc
    split at hc
    · simp only [List.nil_append] at hc
      exact (hrest c hc).1
    · simp only [List.cons_append, List.head?_cons, Option.some.injEq] at hc
      subst hc
      rfl
  have hsplit := takeWhile_append_all Char.isDigit ids _ hids_dig hfrac_head
  have hminus : headIs '-' (ids ++ ((if fds = [] then [] else '.' :: fds) ++ rest)) = false := by
    rcases ids with _ | ⟨c, t⟩
    · exact absurd rfl hids_ne
    · exact digit_ne_minus (hids_dig c (by simp))
  have hlzb : (decide (2 ≤ ids.length) && headIs '0' ids) = false := by
    rcases hlz with h1 | h1
    · rw [h1]
      rfl
    · rcases ids with _ | ⟨c, t⟩
      · rfl
      · have : (decide (c = '0')) = false := by
          rw [decide_eq_false_iff_not]
          exact h1 c rfl
        show (_ && decide (c = '0')) = false
        rw [this, Bool.and_false]
  cases neg
  · -- no sign
    simp only [if_neg (by simp : ¬ (true = false)), Bool.false_eq_true, if_false,
      List.nil_append]
    rw [parseJNumber]
    simp only [hminus, Bool.false_eq_true, if_false]
    rw [hsplit.1, hsplit.2, if_neg hids_ne, hlzb]
    simp only [Bool.false_eq_true, if_false]
    by_cases hfe : fds = []
    · subst hfe
      simp only [reduceIte, List.nil_append]
      rw [headIs_false_of_numBdry rest hrest (by right; left; rfl)]
      simp only [Bool.false_eq_true, if_false]
      exact parseJExp_no_exp _ _ _ _ hrest
    · rw [if_neg hfe]
      show (if headIs '.' ('.' :: (fds ++ rest)) = true then _ else _) = _
      rw [show headIs '.' ('.' :: (fds ++ rest)) = true from rfl]
      simp only [if_true]
      have hsplit2 := takeWhile_append_all Char.isDigit fds rest hfds_dig
        (fun c hc => (hrest c hc).1)
      show (let t := ('.' :: (fds ++ rest)).tail; _) = _
      show (if (fds ++ rest).takeWhile Char.isDigit = [] then none
            else parseJExp 1 ids ((fds ++ rest).takeWhile Char.isDigit)
              ((fds ++ rest).dropWhile Char.isDigit)) = _
      rw [hsplit2.1, hsplit2.2, if_neg hfe]
      exact parseJExp_no_exp _ _ _ _ hrest
  · -- leading minus sign
    simp only [reduceIte, List.cons_append, List.nil_append]
    rw [parseJNumber]
    show (let sc : Int × List Char :=
            if headIs '-' ('-' :: (ids ++ ((if fds = [] then [] else '.' :: fds) ++ rest))) = true
            then (-1, (('-' :: (ids ++ ((if fds = [] then [] else '.' :: fds) ++ rest))).tail))
            else (1, '-' :: (ids ++ ((if fds = [] then [] else '.' :: fds) ++ rest)));
          _) = _
    rw [show headIs '-' ('-' :: (ids ++ ((if fds = [] then [] else '.' :: fds) ++ rest))) = true
        from rfl]
    simp only [if_true, List.tail_cons]
    rw [hsplit.1, hsplit.2, if_neg hids_ne, hlzb]
    simp only [Bool.false_eq_true, if_false]
    by_cases hfe : fds = []
    · subst hfe
      simp only [reduceIte, List.nil_append]
      rw [headIs_false_of_numBdry rest hrest (by right; left; rfl)]
      simp only [Bool.false_eq_true, if_false]
      exact parseJExp_no_exp _ _ _ _ hrest
    · rw [if_neg hfe]
      show (if headIs '.' ('.' :: (fds ++ rest)) = true then _ else _) = _
      rw [show headIs '.' ('.' :: (fds ++ rest)) = true from rfl]
      simp only [if_true]
      have hsplit2 := takeWhile_append_all Char.isDigit fds rest hfds_dig
        (fun c hc => (hrest c hc).1)
      show (if (fds ++ rest).takeWhile Char.isDigit = [] then none
            else parseJExp (-1) ids ((fds ++ rest).takeWhile Char.isDigit)
              ((fds ++ rest).dropWhile Char.isDigit)) = _
      rw [hsplit2.1, hsplit2.2, if_neg hfe]
      exact parseJExp_no_exp _ _ _ _ hrest

theorem renderNat_head_ne_zero' (M : Nat) (hM : M ≠ 0) (a : Nat) (ha : 1 ≤ a) :
    ∀ c, ((renderNat M).take a).head? = some c → c ≠ '0' := by
  intro c hc2
  rcases h0 : renderNat M with _ | ⟨c0, t0⟩
  · exact absurd h0 (renderNat_ne_nil M)
  · rcases a with _ | a
    · omega
    · rw [h0] at hc2
      simp only [List.take_succ_cons, List.head?_cons, Option.some.injEq] at hc2
      exact hc2 ▸ renderNat_head_ne_zero M hM c0 (by rw [h0]; rfl)

theorem parseJNumber_renderDec (d : Dec) (rest : List Char)
    (hc : isCanonDec d = true) (hrest : NumBdry rest) :
    parseJNumber (renderDec d ++ rest) = some (d, rest) := by
  have hM0 : d.mant = 0 → d.exp = 0 := by
    intro h0
    rw [isCanonDec, if_pos h0] at hc
    simpa using hc
  have hMd : d.mant ≠ 0 → ¬ (10 ∣ d.mant) := by
    intro h0 hdvd
    rw [isCanonDec, if_neg h0] at hc
    simp only [decide_not, Bool.not_eq_true', decide_eq_false_iff_not] at hc
    exact hc (Int.emod_eq_zero_of_dvd hdvd)
  by_cases hexp : 0 ≤ d.exp
  · -- integral rendering: digits then zeros, no fraction
    have hbody : decBodyChars d =
        renderNat d.mant.natAbs ++ List.replicate d.exp.toNat '0' := by
      rw [decBodyChars, if_pos hexp]
    set M := d.mant.natAbs with hM
    set E := d.exp.toNat with hE
    set ids := renderNat M ++ List.replicate E '0' with hids
    have hids_ne : ids ≠ [] := by
      rw [hids]
      intro h
      rcases List.append_eq_nil.mp h with ⟨h1, _⟩
      exact renderNat_ne_nil M h1
    have hids_dig : ∀ c ∈ ids, c.isDigit = true := by
      rw [hids]
      intro c hc2
      rcases List.mem_append.mp hc2 with h | h
      · exact renderNat_all_digits M c h
      · exact replicate_zero_all_digits E c h
    have hlz : ids.length = 1 ∨ (∀ c, ids.head? = some c → c ≠ '0') := by
      by_cases hm : d.mant = 0
      · left
        have hE0 : E = 0 := by rw [hE, hM0 hm]; rfl
        have hM0' : M = 0 := by rw [hM, hm]; rfl
        rw [hids, hE0, hM0']
        rfl
      · right
        intro c hc2
        have hMne : M ≠ 0 := Int.natAbs_ne_zero.mpr hm
        rw [hids] at hc2
        rcases h0 : renderNat M with _ | ⟨c0, t0⟩
        · exact absurd h0 (renderNat_ne_nil M)
        · rw [h0] at hc2
          simp only [List.cons_append, List.head?_cons, Option.some.injEq] at hc2
          exact hc2 ▸ renderNat_head_ne_zero M hMne c0 (by rw [h0]; rfl)
    have hval : digitsValN ids = M * 10 ^ E := by
      rw [hids, digitsValN_append, digitsValN_replicate_zero, digitsValN_renderNat,
        List.length_replicate]
      ring
    have hdec : ∀ sg : Int, sg * (M : Int) = d.mant → decOfParts sg ids [] 0 = d := by
      intro sg hsg
      rw [decOfParts]
      simp only [List.append_nil, List.length_nil, Nat.cast_zero, sub_zero]
      rw [hval]
      by_cases hm : d.mant = 0
      · have hE0 : E = 0 := by rw [hE, hM0 hm]; rfl
        have hM0' : M = 0 := by rw [hM, hm]; rfl
        have h2 : d = ⟨0, 0⟩ := by
          rcases d with ⟨m, e⟩
          simp only at hm
          have he := hM0 hm
          simp only at he
          rw [hm, he]
        rw [hM0', hE0, h2]
        have h3 : sg * ((0 * 10 ^ 0 : ℕ) : ℤ) = 0 := by norm_num
        rw [h3]
        rfl
      · have hcast : (↑(M * 10 ^ E) : ℤ) = (M : ℤ) * 10 ^ E := by push_cast; ring
        rw [hcast, show sg * ((M : ℤ) * 10 ^ E) = (sg * (M : ℤ)) * 10 ^ E by ring, hsg]
        rw [canonRec_strip' d.mant hm (hMd hm) E 0]
        have hEz : (E : ℤ) = d.exp := by rw [hE]; exact Int.toNat_of_nonneg hexp
        rcases d with ⟨m, e⟩
        simp only at hEz ⊢
        rw [zero_add, hEz]
    by_cases hneg : d.mant < 0
    · have hren : renderDec d = '-' :: ids := by
        rw [renderDec, if_pos hneg, hbody]
      have hshape := parseJNumber_shape true ids [] rest hids_ne hids_dig hlz
        (by simp) hrest
      have harg : renderDec d ++ rest =
          (if (true : Bool) = true then ['-'] else []) ++
            (ids ++ ((if ([] : List Char) = [] then [] else '.' :: []) ++ rest)) := by
        rw [hren]
        simp
      have e2 : (if (true : Bool) = true then (-1 : Int) else 1) = -1 := rfl
      rw [harg, hshape, e2, hdec (-1) (by omega)]
    · have hren : renderDec d = ids := by
        rw [renderDec, if_neg hneg, hbody]
      have hshape := parseJNumber_shape false ids [] rest hids_ne hids_dig hlz
        (by simp) hrest
      have harg : renderDec d ++ rest =
          (if (false : Bool) = true then ['-'] else []) ++
            (ids ++ ((if ([] : List Char) = [] then [] else '.' :: []) ++ rest)) := by
        rw [hren]
        simp
      have e2 : (if (false : Bool) = true then (-1 : Int) else 1) = 1 := rfl
      rw [harg, hshape, e2, hdec 1 (by omega)]
  · -- fractional rendering
    have hmant : d.mant ≠ 0 := by
      intro h0
      exact hexp (le_of_eq (hM0 h0).symm)
    set M := d.mant.natAbs with hM
    have hMne : M ≠ 0 := Int.natAbs_ne_zero.mpr hmant
    set k := (-d.exp).toNat with hk
    have hk1 : 1 ≤ k := by
      rw [hk]
      omega
    set ds1 := padLeftZeros k (renderNat M) with hds1
    have hds1digits : ∀ c ∈ ds1, c.isDigit = true := by
      rw [hds1, padLeftZeros]
      split
      · intro c hcmem
        rcases List.mem_append.mp hcmem with hmem | hmem
        · exact replicate_zero_all_digits _ c hmem
        · exact renderNat_all_digits M c hmem
      · exact renderNat_all_digits M
    have hds1val : digitsValN ds1 = M := by
      rw [hds1, padLeftZeros]
      split
      · rw [digitsValN_append, digitsValN_replicate_zero, digitsValN_renderNat]
        ring
      · exact digitsValN_renderNat M
    have hL : k + 1 ≤ ds1.length := by
      rw [hds1, padLeftZeros]
      split
      · rw [List.length_append, List.length_replicate]
        omega
      · omega
    set a := ds1.length - k with ha
    have ha1 : 1 ≤ a := by omega
    set ids := ds1.take a with hids
    set fds := ds1.drop a with hfds
    have hidsfds : ids ++ fds = ds1 := List.take_append_drop a ds1
    have hids_len : ids.length = a := by
      rw [hids, List.length_take]
      omega
    have hfds_len : fds.length = k := by
      rw [hfds, List.length_drop]
      omega
    have hids_ne : ids ≠ [] := by
      intro h
      rw [h] at hids_len
      simp at hids_len
      omega
    have hfds_ne : fds ≠ [] := by
      intro h
      rw [h] at hfds_len
      simp at hfds_len
      omega
    have hids_dig : ∀ c ∈ ids, c.isDigit = true :=
      fun c hcm => hds1digits c (List.take_subset _ _ hcm)
    have hfds_dig : ∀ c ∈ fds, c.isDigit = true :=
      fun c hcm => hds1digits c (List.drop_subset _ _ hcm)
    have hlz : ids.length = 1 ∨ (∀ c, ids.head? = some c → c ≠ '0') := by
      rw [hds1] at hids
      rw [padLeftZeros] at hids
      by_cases hpad : (renderNat M).length < k + 1
      · left
        rw [hids_len, ha, hds1, padLeftZeros, if_pos hpad, List.length_append,
          List.length_replicate]
        omega
      · right
        rw [if_neg hpad] at hids
        rw [hids]
        exact renderNat_head_ne_zero' M hMne a ha1
    have hbody : decBodyChars d = ids ++ '.' :: fds := by
      rw [decBodyChars, if_neg hexp]
    have hdec : ∀ sg : Int, sg * (M : Int) = d.mant → decOfParts sg ids fds 0 = d := by
      intro sg hsg
      rw [decOfParts]
      simp only [hidsfds, hds1val]
      rw [hfds_len, hsg]
      have hkz : (0 : Int) - k = d.exp := by
        rw [hk]
        omega
      rw [hkz]
      have hdd : (⟨d.mant, d.exp⟩ : Dec) = d := rfl
      rw [hdd]
      exact canonDec_self d hc
    by_cases hneg : d.mant < 0
    · have hren : renderDec d = '-' :: (ids ++ '.' :: fds) := by
        rw [renderDec, if_pos hneg, hbody]
      have hshape := parseJNumber_shape true ids fds rest hids_ne hids_dig hlz
        hfds_dig hrest
      have harg : renderDec d ++ rest =
          (if (true : Bool) = true then ['-'] else []) ++
            (ids ++ ((if fds = [] then [] else '.' :: fds) ++ rest)) := by
        rw [hren, if_neg hfds_ne]
        simp
      have e2 : (if (true : Bool) = true then (-1 : Int) else 1) = -1 := rfl
      rw [harg, hshape, e2, hdec (-1) (by omega)]
    · have hren : renderDec d = ids ++ '.' :: fds := by
        rw [renderDec, if_neg hneg, hbody]
      have hshape := parseJNumber_shape false ids fds rest hids_ne hids_dig hlz
        hfds_dig hrest
      have harg : renderDec d ++ rest =
          (if (false : Bool) = true then ['-'] else []) ++
            (ids ++ ((if fds = [] then [] else '.' :: fds) ++ rest)) := by
        rw [hren, if_neg hfds_ne]
        simp
      have e2 : (if (false : Bool) = true then (-1 : Int) else 1) = 1 := rfl
      rw [harg, hshape, e2, hdec 1 (by omega)]

theorem isHexDigit_hexDigitChar : ∀ m < 16, isHexDigit (hexDigitChar m) = true := by
  decide

theorem hexVal_hexDigitChar : ∀ m < 16, hexVal (hexDigitChar m) = m := by
  decide

theorem hexValN_00 (x y : Char) : hexValN ['0', '0', x, y] = hexVal x * 16 + hexVal y := by
  show ((0 * 16 + hexVal '0') * 16 + hexVal x) * 16 + hexVal y = _
  have h0 : hexVal '0' = 0 := rfl
  rw [h0]
  ring

set_option maxHeartbeats 4000000 in
theorem parseJStringChars_escChars (cs : List Char) : ∀ (rest : List Char),
    parseJStringChars (escChars cs ++ '"' :: rest) = some (cs, rest) := by
  induction cs with
  | nil =>
    intro rest
    show parseJStringChars ('"' :: rest) = some ([], rest)
    rw [parseJStringChars.eq_def]
    simp
  | cons c t ih =>
    intro rest
    have hstep : escChars (c :: t) = escapeChar c ++ escChars t := rfl
    rw [hstep, List.append_assoc]
    by_cases h1 : c = '"'
    · subst h1
      simp only [escapeChar, reduceIte, List.cons_append, List.nil_append]
      rw [parseJStringChars.eq_def]
      simp [ih]
    by_cases h2 : c = '\\'
    · subst h2
      simp only [escapeChar, reduceIte, List.cons_append, List.nil_append]
      rw [parseJStringChars.eq_def]
      simp [ih]
    by_cases h3 : c = '\x08'
    · subst h3
      simp only [escapeChar, reduceIte, List.cons_append, List.nil_append]
      rw [parseJStringChars.eq_def]
      simp [ih]
    by_cases h4 : c = '\x0c'
    · subst h4
      simp only [escapeChar, reduceIte, List.cons_append, List.nil_append]
      rw [parseJStringChars.eq_def]
      simp [ih]
    by_cases h5 : c = '\n'
    · subst h5
      simp only [escapeChar, reduceIte, List.cons_append, List.nil_append]
      rw [parseJStringChars.eq_def]
      simp [ih]
    by_cases h6 : c = '\r'
    · subst h6
      simp only [escapeChar, reduceIte, List.cons_append, List.nil_append]
      rw [parseJStringChars.eq_def]
      simp [ih]
    by_cases h7 : c = '\t'
    · subst h7
      simp only [escapeChar, reduceIte, List.cons_append, List.nil_append]
      rw [parseJStringChars.eq_def]
      simp [ih]
    by_cases h8 : c.toNat < 32
    · rw [escapeChar, if_neg h1, if_neg h2, if_neg h3, if_neg h4, if_neg h5, if_neg h6,
        if_neg h7, if_pos h8]
      have ha : c.toNat / 16 < 16 := by omega
      have hb : c.toNat % 16 < 16 := by omega
      have hha := isHexDigit_hexDigitChar _ ha
      have hhb := isHexDigit_hexDigitChar _ hb
      have hva := hexVal_hexDigitChar _ ha
      have hvb := hexVal_hexDigitChar _ hb
      have hmn : hexValN ['0', '0', hexDigitChar (c.toNat / 16),
          hexDigitChar (c.toNat % 16)] = c.toNat := by
        rw [hexValN_00, hva, hvb]
        omega
      show parseJStringChars ('\\' :: 'u' :: '0' :: '0' :: hexDigitChar (c.toNat / 16) ::
        hexDigitChar (c.toNat % 16) :: (escChars t ++ '"' :: rest)) = _
      have h00 : isHexDigit '0' = true := rfl
      rw [parseJStringChars.eq_def]
      simp [h00, hha, hhb, ih, hmn, Char.ofNat_toNat]
    · rw [escapeChar, if_neg h1, if_neg h2, if_neg h3, if_neg h4, if_neg h5, if_neg h6,
        if_neg h7, if_neg h8]
      show parseJStringChars (c :: (escChars t ++ '"' :: rest)) = _
      rw [parseJStringChars.eq_def]
      simp [h1, h2, h8, ih]

theorem skipJWs_cons_false {c : Char} (t : List Char) (h : isJWs c = false) :
    skipJWs (c :: t) = c :: t := by
  simp [skipJWs, List.dropWhile_cons, h]

theorem digit_head_facts {c : Char} (h : c.isDigit = true) :
    isJWs c = false ∧ ¬ c = '"' ∧ ¬ c = '[' ∧ ¬ c = '{' ∧ ¬ c = 't' ∧ ¬ c = 'f' ∧
      ¬ c = 'n' ∧ ¬ c = ']' := by
  refine ⟨?_, ?_, ?_, ?_, ?_, ?_, ?_, ?_⟩
  · cases hc : isJWs c
    · rfl
    · exfalso
      rw [isJWs] at hc
      simp only [Bool.or_eq_true, decide_eq_true_eq] at hc
      rcases hc with ((h1 | h1) | h1) | h1 <;> (subst h1; cases h)
  all_goals (rintro rfl; cases h)

theorem minus_head_facts :
    isJWs '-' = false ∧ ¬ '-' = '"' ∧ ¬ '-' = '[' ∧ ¬ '-' = '{' ∧ ¬ '-' = 't' ∧
      ¬ '-' = 'f' ∧ ¬ '-' = 'n' ∧ ¬ '-' = ']' := by
  decide

theorem padLeftZeros_all_digits (k : Nat) (ds : List Char)
    (h : ∀ c ∈ ds, c.isDigit = true) :
    ∀ c ∈ padLeftZeros k ds, c.isDigit = true := by
  rw [padLeftZeros]
  split
  · intro c hc
    rcases List.mem_append.mp hc with hm | hm
    · exact replicate_zero_all_digits _ c hm
    · exact h c hm
  · exact h

theorem decBodyChars_ne_nil (d : Dec) : decBodyChars d ≠ [] := by
  rw [decBodyChars]
  split
  · intro hc
    rcases List.append_eq_nil.mp hc with ⟨h1, _⟩
    exact renderNat_ne_nil _ h1
  · intro hc
    rcases List.append_eq_nil.mp hc with ⟨_, h2⟩
    cases h2

theorem renderDec_ne_nil (d : Dec) : renderDec d ≠ [] := by
  rw [renderDec]
  split
  · intro hc; cases hc
  · exact decBodyChars_ne_nil d

theorem decBodyChars_head_digit (d : Dec) :
    ∀ c, (decBodyChars d).head? = some c → c.isDigit = true := by
  intro c hc
  by_cases hexp : 0 ≤ d.exp
  · have hbody : decBodyChars d =
        renderNat d.mant.natAbs ++ List.replicate d.exp.toNat '0' := by
      rw [decBodyChars, if_pos hexp]
    rw [hbody] at hc
    rcases h0 : renderNat d.mant.natAbs with _ | ⟨c0, t0⟩
    · exact absurd h0 (renderNat_ne_nil _)
    · rw [h0] at hc
      simp only [List.cons_append, List.head?_cons, Option.some.injEq] at hc
      exact hc ▸ renderNat_all_digits _ c0 (by rw [h0]; exact List.mem_cons_self c0 t0)
  · set k := (-d.exp).toNat with hk
    set ds := padLeftZeros k (renderNat d.mant.natAbs) with hds
    have hbody : decBodyChars d =
        ds.take (ds.length - k) ++ '.' :: ds.drop (ds.length - k) := by
      rw [decBodyChars, if_neg hexp]
    rw [hbody] at hc
    have hdig : ∀ x ∈ ds, x.isDigit = true :=
      padLeftZeros_all_digits _ _ (renderNat_all_digits _)
    have hL : k + 1 ≤ ds.length := by
      rw [hds, padLeftZeros]
      split
      · rw [List.length_append, List.length_replicate]
        omega
      · omega
    rcases h0 : ds.take (ds.length - k) with _ | ⟨c0, t0⟩
    · have := congrArg List.length h0
      rw [List.length_take] at this
      simp at this
      omega
    · rw [h0] at hc
      simp only [List.cons_append, List.head?_cons, Option.some.injEq] at hc
      refine hc ▸ hdig c0 ?_
      exact List.take_subset _ _ (by rw [h0]; exact List.mem_cons_self c0 t0)

theorem renderDec_head (d : Dec) :
    ∀ c, (renderDec d).head? = some c → c = '-' ∨ c.isDigit = true := by
  intro c hc
  rw [renderDec] at hc
  split at hc
  · simp only [List.head?_cons, Option.some.injEq] at hc
    left
    exact hc.symm
  · right
    exact decBodyChars_head_digit d c hc

theorem encodeVal_ne_nil (v : JsonValue) : encodeVal v ≠ [] := by
  cases v with
  | str s => intro hc; cases hc
  | num d =>
    show renderDec d ≠ []
    exact renderDec_ne_nil d
  | bool b => cases b <;> (intro hc; cases hc)
  | null => intro hc; cases hc
  | arr xs => cases xs <;> (intro hc; cases hc)
  | obj ms => cases ms <;> (intro hc; cases hc)

theorem numBdry_nil : NumBdry [] := by
  intro c hc
  cases hc

theorem numBdry_cons {c : Char}
    (h : c.isDigit = false ∧ c ≠ '.' ∧ c ≠ 'e' ∧ c ≠ 'E' ∧ c ≠ '-') (t : List Char) :
    NumBdry (c :: t) := by
  intro x hx
  simp only [List.head?_cons, Option.some.injEq] at hx
  exact hx ▸ h

theorem numBdry_elems_tail (vs : List JsonValue) (rest : List Char) :
    NumBdry (encodeElemsTail vs ++ ']' :: rest) := by
  cases vs with
  | nil => exact numBdry_cons (by decide) rest
  | cons x xs =>
    show NumBdry ((',' :: (encodeVal x ++ encodeElemsTail xs)) ++ ']' :: rest)
    rw [List.cons_append]
    exact numBdry_cons (by decide) _

theorem numBdry_members_tail (ms : List (String × JsonValue)) (rest : List Char) :
    NumBdry (encodeMembersTail ms ++ '}' :: rest) := by
  cases ms with
  | nil => exact numBdry_cons (by decide) rest
  | cons m ms2 =>
    show NumBdry ((',' :: (encodeMemberJ m ++ encodeMembersTail ms2)) ++ '}' :: rest)
    rw [List.cons_append]
    exact numBdry_cons (by decide) _

theorem encodeElemsTail_len (vs : List JsonValue) :
    vs.length ≤ (encodeElemsTail vs).length := by
  induction vs with
  | nil => simp [encodeElemsTail]
  | cons x xs ih =>
    show xs.length + 1 ≤ (',' :: (encodeVal x ++ encodeElemsTail xs)).length
    simp only [List.length_cons, List.length_append]
    omega

theorem encodeMembersTail_len (ms : List (String × JsonValue)) :
    ms.length ≤ (encodeMembersTail ms).length := by
  induction ms with
  | nil => simp [encodeMembersTail]
  | cons m ms2 ih =>
    show ms2.length + 1 ≤ (',' :: (encodeMemberJ m ++ encodeMembersTail ms2)).length
    simp only [List.length_cons, List.length_append]
    omega

theorem encodeVal_head_facts (v : JsonValue) :
    ∀ c, (encodeVal v).head? = some c → isJWs c = false ∧ ¬ c = ']' := by
  cases v with
  | str s =>
    intro c hc
    have hs : encodeVal (.str s) = '"' :: (escChars s.data ++ ['"']) := rfl
    rw [hs] at hc
    simp only [List.head?_cons, Option.some.injEq] at hc
    subst hc
    decide
  | num d =>
    intro c hc
    rcases renderDec_head d c hc with h | h
    · subst h; decide
    · have hf := digit_head_facts h
      exact ⟨hf.1, hf.2.2.2.2.2.2.2⟩
  | bool b =>
    cases b with
    | true =>
      intro c hc
      rw [show encodeVal (.bool true) = ['t', 'r', 'u', 'e'] from rfl] at hc
      simp only [List.head?_cons, Option.some.injEq] at hc
      subst hc
      decide
    | false =>
      intro c hc
      rw [show encodeVal (.bool false) = ['f', 'a', 'l', 's', 'e'] from rfl] at hc
      simp only [List.head?_cons, Option.some.injEq] at hc
      subst hc
      decide
  | null =>
    intro c hc
    simp only [encodeVal, List.head?_cons, Option.some.injEq] at hc
    subst hc
    decide
  | arr xs =>
    cases xs <;>
      (intro c hc; simp only [encodeVal, List.cons_append, List.head?_cons,
        Option.some.injEq] at hc; subst hc; decide)
  | obj ms =>
    cases ms <;>
      (intro c hc; simp only [encodeVal, List.cons_append, List.head?_cons,
        Option.some.injEq] at hc; subst hc; decide)

theorem WfJsonD_mono {n : Nat} {v : JsonValue} (hw : WfJsonD n v) :
    ∀ m, n ≤ m → WfJsonD m v := by
  induction hw with
  | wstr n s =>
    intro m hm
    rcases m with _ | m2
    · omega
    · exact .wstr m2 s
  | wnum n d hc =>
    intro m hm
    rcases m with _ | m2
    · omega
    · exact .wnum m2 d hc
  | wbool n b =>
    intro m hm
    rcases m with _ | m2
    · omega
    · exact .wbool m2 b
  | wnull n =>
    intro m hm
    rcases m with _ | m2
    · omega
    · exact .wnull m2
  | warr n xs h ih =>
    intro m hm
    rcases m with _ | m2
    · omega
    · exact .warr m2 xs (fun x hx => ih x hx m2 (by omega))
  | wobj n ms h ih =>
    intro m hm
    rcases m with _ | m2
    · omega
    · exact .wobj m2 ms (fun x hx => ih x hx m2 (by omega))

theorem jsonElemsLoop_encode (pv : List Char → Option (JsonValue × List Char)) :
    ∀ (vs : List JsonValue) (v : JsonValue),
      (∀ u, (u = v ∨ u ∈ vs) → ∀ r2, NumBdry r2 → pv (encodeVal u ++ r2) = some (u, r2)) →
      ∀ (lf : Nat), vs.length < lf → ∀ (rest : List Char),
        jsonElemsLoop pv lf (encodeVal v ++ (encodeElemsTail vs ++ ']' :: rest)) =
          some (v :: vs, rest) := by
  intro vs
  induction vs with
  | nil =>
    intro v hpv lf hlf rest
    rcases lf with _ | f
    · omega
    rw [show encodeElemsTail ([] : List JsonValue) ++ ']' :: rest = ']' :: rest from rfl]
    have hpv1 := hpv v (Or.inl rfl) (']' :: rest) (numBdry_cons (by decide) rest)
    have hsk : skipJWs (']' :: rest) = ']' :: rest := skipJWs_cons_false _ (by decide)
    rw [jsonElemsLoop, hpv1]
    simp [hsk, headIs]
  | cons w ws ihl =>
    intro v hpv lf hlf rest
    rcases lf with _ | f
    · omega
    have hs : encodeElemsTail (w :: ws) ++ ']' :: rest =
        ',' :: (encodeVal w ++ (encodeElemsTail ws ++ ']' :: rest)) := by
      show (',' :: (encodeVal w ++ encodeElemsTail ws)) ++ ']' :: rest = _
      simp
    rw [hs]
    have hpv1 := hpv v (Or.inl rfl)
      (',' :: (encodeVal w ++ (encodeElemsTail ws ++ ']' :: rest)))
      (numBdry_cons (by decide) (encodeVal w ++ (encodeElemsTail ws ++ ']' :: rest)))
    have hsk : skipJWs (',' :: (encodeVal w ++ (encodeElemsTail ws ++ ']' :: rest))) =
        ',' :: (encodeVal w ++ (encodeElemsTail ws ++ ']' :: rest)) :=
      skipJWs_cons_false _ (by decide)
    have hpv' : ∀ u, (u = w ∨ u ∈ ws) → ∀ r2, NumBdry r2 →
        pv (encodeVal u ++ r2) = some (u, r2) := by
      intro u hu r2 hb2
      refine hpv u ?_ r2 hb2
      rcases hu with h | h
      · right; rw [h]; exact List.mem_cons_self w ws
      · right; exact List.mem_cons_of_mem w h
    have hrec := ihl w hpv' f (by simpa using Nat.lt_of_succ_lt_succ hlf) rest
    rw [jsonElemsLoop, hpv1]
    simp [hsk, headIs, hrec]

theorem jsonMembersLoop_encode (pv : List Char → Option (JsonValue × List Char)) :
    ∀ (ms : List (String × JsonValue)) (k : String) (v : JsonValue),
      (∀ u : String × JsonValue, (u = (k, v) ∨ u ∈ ms) → ∀ r2, NumBdry r2 →
        pv (encodeVal u.2 ++ r2) = some (u.2, r2)) →
      ∀ (lf : Nat), ms.length < lf → ∀ (rest : List Char),
        jsonMembersLoop pv lf
            (encodeMemberJ (k, v) ++ (encodeMembersTail ms ++ '}' :: rest)) =
          some ((k, v) :: ms, rest) := by
  intro ms
  induction ms with
  | nil =>
    intro k v hpv lf hlf rest
    rcases lf with _ | f
    · omega
    rw [show encodeMembersTail ([] : List (String × JsonValue)) ++ '}' :: rest =
      '}' :: rest from rfl]
    have hshape : encodeMemberJ (k, v) ++ '}' :: rest =
        '"' :: (escChars k.data ++ '"' :: ':' :: (encodeVal v ++ '}' :: rest)) := by
      show (encodeStringChars k ++ ':' :: encodeVal v) ++ '}' :: rest = _
      simp [encodeStringChars]
    rw [hshape]
    have hsk : skipJWs ('"' :: (escChars k.data ++ '"' :: ':' ::
        (encodeVal v ++ '}' :: rest))) = '"' :: (escChars k.data ++ '"' :: ':' ::
        (encodeVal v ++ '}' :: rest)) := skipJWs_cons_false _ (by decide)
    have hkey := parseJStringChars_escChars k.data (':' :: (encodeVal v ++ '}' :: rest))
    have hpv1 := hpv (k, v) (Or.inl rfl) ('}' :: rest) (numBdry_cons (by decide) rest)
    have hsk2 : skipJWs (':' :: (encodeVal v ++ '}' :: rest)) =
        ':' :: (encodeVal v ++ '}' :: rest) := skipJWs_cons_false _ (by decide)
    have hsk3 : skipJWs ('}' :: rest) = '}' :: rest := skipJWs_cons_false _ (by decide)
    rw [jsonMembersLoop, hsk]
    simp [hkey, headIs, hsk2, hpv1, hsk3, String.mk_data_eq]
  | cons m2 ms2 ihl =>
    intro k v hpv lf hlf rest
    rcases lf with _ | f
    · omega
    rcases m2 with ⟨k2, v2⟩
    have hs : encodeMembersTail ((k2, v2) :: ms2) ++ '}' :: rest =
        ',' :: (encodeMemberJ (k2, v2) ++ (encodeMembersTail ms2 ++ '}' :: rest)) := by
      show (',' :: (encodeMemberJ (k2, v2) ++ encodeMembersTail ms2)) ++ '}' :: rest = _
      simp
    rw [hs]
    have hshape : encodeMemberJ (k, v) ++
        (',' :: (encodeMemberJ (k2, v2) ++ (encodeMembersTail ms2 ++ '}' :: rest))) =
        '"' :: (escChars k.data ++ '"' :: ':' :: (encodeVal v ++
          (',' :: (encodeMemberJ (k2, v2) ++ (encodeMembersTail ms2 ++ '}' :: rest))))) := by
      show (encodeStringChars k ++ ':' :: encodeVal v) ++ _ = _
      simp [encodeStringChars]
    rw [hshape]
    have hsk : skipJWs ('"' :: (escChars k.data ++ '"' :: ':' :: (encodeVal v ++
        (',' :: (encodeMemberJ (k2, v2) ++ (encodeMembersTail ms2 ++ '}' :: rest)))))) =
        '"' :: (escChars k.data ++ '"' :: ':' :: (encodeVal v ++
        (',' :: (encodeMemberJ (k2, v2) ++ (encodeMembersTail ms2 ++ '}' :: rest))))) :=
      skipJWs_cons_false _ (by decide)
    have hkey := parseJStringChars_escChars k.data (':' :: (encodeVal v ++
      (',' :: (encodeMemberJ (k2, v2) ++ (encodeMembersTail ms2 ++ '}' :: rest)))))
    have hpv1 := hpv (k, v) (Or.inl rfl)
      (',' :: (encodeMemberJ (k2, v2) ++ (encodeMembersTail ms2 ++ '}' :: rest)))
      (numBdry_cons (by decide)
        (encodeMemberJ (k2, v2) ++ (encodeMembersTail ms2 ++ '}' :: rest)))
    have hsk2 : skipJWs (':' :: (encodeVal v ++ (',' :: (encodeMemberJ (k2, v2) ++
        (encodeMembersTail ms2 ++ '}' :: rest))))) = ':' :: (encodeVal v ++
        (',' :: (encodeMemberJ (k2, v2) ++ (encodeMembersTail ms2 ++ '}' :: rest)))) :=
      skipJWs_cons_false _ (by decide)
    have hsk3 : skipJWs (',' :: (encodeMemberJ (k2, v2) ++
        (encodeMembersTail ms2 ++ '}' :: rest))) = ',' :: (encodeMemberJ (k2, v2) ++
        (encodeMembersTail ms2 ++ '}' :: rest)) := skipJWs_cons_false _ (by decide)
    have hpv' : ∀ u : String × JsonValue, (u = (k2, v2) ∨ u ∈ ms2) → ∀ r2, NumBdry r2 →
        pv (encodeVal u.2 ++ r2) = some (u.2, r2) := by
      intro u hu r2 hb2
      refine hpv u ?_ r2 hb2
      rcases hu with h | h
      · right; rw [h]; exact List.mem_cons_self (k2, v2) ms2
      · right; exact List.mem_cons_of_mem (k2, v2) h
    have hrec := ihl k2 v2 hpv' f (by simpa using Nat.lt_of_succ_lt_succ hlf) rest
    rw [jsonMembersLoop, hsk]
    simp [hkey, headIs, hsk2, hpv1, hsk3, hrec, String.mk_data_eq]

theorem jsonParseValue_quote (f : Nat) (S : List Char) :
    jsonParseValue (f + 1) ('"' :: S) =
      match parseJStringChars S with
      | some (sc, r2) => some (.str ⟨sc⟩, r2)
      | none => none := by
  rw [jsonParseValue, skipJWs_cons_false _ (by decide)]
  rfl

theorem jsonParseValue_lbracket (f : Nat) (S : List Char) :
    jsonParseValue (f + 1) ('[' :: S) =
      (if headIs ']' (skipJWs S) then some (.arr [], (skipJWs S).tail)
      else
        match jsonElemsLoop (jsonParseValue f) ((skipJWs S).length + 1) (skipJWs S) with
        | some (vs, r3) => some (.arr vs, r3)
        | none => none) := by
  rw [jsonParseValue, skipJWs_cons_false _ (by decide)]
  rfl

theorem jsonParseValue_lbrace (f : Nat) (S : List Char) :
    jsonParseValue (f + 1) ('{' :: S) =
      (if headIs '}' (skipJWs S) then some (.obj [], (skipJWs S).tail)
      else
        match jsonMembersLoop (jsonParseValue f) ((skipJWs S).length + 1) (skipJWs S) with
        | some (ms, r3) => some (.obj ms, r3)
        | none => none) := by
  rw [jsonParseValue, skipJWs_cons_false _ (by decide)]
  rfl

theorem jsonParseValue_tchar (f : Nat) (S : List Char) :
    jsonParseValue (f + 1) ('t' :: S) =
      match dropLit ['r', 'u', 'e'] S with
      | some r2 => some (.bool true, r2)
      | none => none := by
  rw [jsonParseValue, skipJWs_cons_false _ (by decide)]
  rfl

theorem jsonParseValue_fchar (f : Nat) (S : List Char) :
    jsonParseValue (f + 1) ('f' :: S) =
      match dropLit ['a', 'l', 's', 'e'] S with
      | some r2 => some (.bool false, r2)
      | none => none := by
  rw [jsonParseValue, skipJWs_cons_false _ (by decide)]
  rfl

theorem jsonParseValue_nchar (f : Nat) (S : List Char) :
    jsonParseValue (f + 1) ('n' :: S) =
      match dropLit ['u', 'l', 'l'] S with
      | some r2 => some (.null, r2)
      | none => none := by
  rw [jsonParseValue, skipJWs_cons_false _ (by decide)]
  rfl

theorem jsonParseValue_numc (f : Nat) (c : Char) (S : List Char) (hws : isJWs c = false)
    (hq : ¬ c = '"') (hlb : ¬ c = '[') (hcb : ¬ c = '{') (ht : ¬ c = 't')
    (hfc : ¬ c = 'f') (hn : ¬ c = 'n') :
    jsonParseValue (f + 1) (c :: S) =
      match parseJNumber (c :: S) with
      | some (d, r2) => some (.num d, r2)
      | none => none := by
  rw [jsonParseValue, skipJWs_cons_false _ hws]
  simp [hq, hlb, hcb, ht, hfc, hn]

theorem jsonParseValue_encode {n : Nat} {v : JsonValue} (hw : WfJsonD n v) :
    ∀ fuel, n ≤ fuel → ∀ rest, NumBdry rest →
      jsonParseValue fuel (encodeVal v ++ rest) = some (v, rest) := by
  induction hw with
  | wstr n s =>
    intro fuel hfu rest hrest
    rcases fuel with _ | f
    · omega
    have hs : encodeVal (.str s) ++ rest = '"' :: (escChars s.data ++ '"' :: rest) := by
      show ('"' :: escChars s.data ++ ['"']) ++ rest = _
      simp
    rw [hs, jsonParseValue_quote, parseJStringChars_escChars]
  | wnum n d hcn =>
    intro fuel hfu rest hrest
    rcases fuel with _ | f
    · omega
    rcases hrd : renderDec d with _ | ⟨c0, t0⟩
    · exact absurd hrd (renderDec_ne_nil d)
    have hhead := renderDec_head d c0 (by rw [hrd]; rfl)
    have hfacts : isJWs c0 = false ∧ ¬ c0 = '"' ∧ ¬ c0 = '[' ∧ ¬ c0 = '{' ∧
        ¬ c0 = 't' ∧ ¬ c0 = 'f' ∧ ¬ c0 = 'n' ∧ ¬ c0 = ']' := by
      rcases hhead with h | h
      · subst h; exact minus_head_facts
      · exact digit_head_facts h
    have hs : encodeVal (.num d) ++ rest = c0 :: (t0 ++ rest) := by
      show renderDec d ++ rest = _
      rw [hrd]
      rfl
    rw [hs, jsonParseValue_numc f c0 (t0 ++ rest) hfacts.1 hfacts.2.1 hfacts.2.2.1
      hfacts.2.2.2.1 hfacts.2.2.2.2.1 hfacts.2.2.2.2.2.1 hfacts.2.2.2.2.2.2.1]
    rw [← List.cons_append, ← hrd, parseJNumber_renderDec d rest hcn hrest]
  | wbool n b =>
    intro fuel hfu rest hrest
    rcases fuel with _ | f
    · omega
    cases b
    · rw [show encodeVal (.bool false) ++ rest = 'f' :: ('a' :: 'l' :: 's' :: 'e' :: rest)
        from rfl, jsonParseValue_fchar]
      rfl
    · rw [show encodeVal (.bool true) ++ rest = 't' :: ('r' :: 'u' :: 'e' :: rest)
        from rfl, jsonParseValue_tchar]
      rfl
  | wnull n =>
    intro fuel hfu rest hrest
    rcases fuel with _ | f
    · omega
    rw [show encodeVal .null ++ rest = 'n' :: ('u' :: 'l' :: 'l' :: rest) from rfl,
      jsonParseValue_nchar]
    rfl
  | warr n xs h ih =>
    intro fuel hfu rest hrest
    rcases fuel with _ | f
    · omega
    cases xs with
    | nil =>
      rw [show encodeVal (.arr []) ++ rest = '[' :: (']' :: rest) from rfl,
        jsonParseValue_lbracket, skipJWs_cons_false _ (by decide)]
      simp [headIs]
    | cons x xs2 =>
      have hs : encodeVal (.arr (x :: xs2)) ++ rest =
          '[' :: (encodeVal x ++ (encodeElemsTail xs2 ++ ']' :: rest)) := by
        show ('[' :: (encodeVal x ++ encodeElemsTail xs2) ++ [']']) ++ rest = _
        simp
      set S := encodeVal x ++ (encodeElemsTail xs2 ++ ']' :: rest) with hS
      rcases hex : encodeVal x with _ | ⟨e0, et⟩
      · exact absurd hex (encodeVal_ne_nil x)
      have hef := encodeVal_head_facts x e0 (by rw [hex]; rfl)
      have hsk2 : skipJWs S = S := by
        rw [hS, hex]
        exact skipJWs_cons_false _ hef.1
      have hhi : headIs ']' S = false := by
        rw [hS, hex]
        show (decide (e0 = ']')) = false
        simp [hef.2]
      have hpv' : ∀ u, (u = x ∨ u ∈ xs2) → ∀ r2, NumBdry r2 →
          jsonParseValue f (encodeVal u ++ r2) = some (u, r2) := by
        intro u hu r2 hb2
        rcases hu with hu | hu
        · subst hu
          exact ih u (List.mem_cons_self _ _) f (by omega) r2 hb2
        · exact ih u (List.mem_cons_of_mem _ hu) f (by omega) r2 hb2
      have hloop := jsonElemsLoop_encode (jsonParseValue f) xs2 x hpv' (S.length + 1)
        (by
          rw [hS]
          simp only [List.length_append, List.length_cons]
          have := encodeElemsTail_len xs2
          omega) rest
      rw [← hS] at hloop
      rw [hs, jsonParseValue_lbracket, hsk2, hhi, if_neg (by decide), hloop]
  | wobj n ms h ih =>
    intro fuel hfu rest hrest
    rcases fuel with _ | f
    · omega
    cases ms with
    | nil =>
      rw [show encodeVal (.obj []) ++ rest = '{' :: ('}' :: rest) from rfl,
        jsonParseValue_lbrace, skipJWs_cons_false _ (by decide)]
      simp [headIs]
    | cons m ms2 =>
      rcases m with ⟨k, v⟩
      have hs : encodeVal (.obj ((k, v) :: ms2)) ++ rest =
          '{' :: (encodeMemberJ (k, v) ++ (encodeMembersTail ms2 ++ '}' :: rest)) := by
        show ('{' :: (encodeMemberJ (k, v) ++ encodeMembersTail ms2) ++ ['}']) ++ rest = _
        simp
      set S := encodeMemberJ (k, v) ++ (encodeMembersTail ms2 ++ '}' :: rest) with hS
      have hsk2 : skipJWs S = S := by
        rw [hS]
        exact skipJWs_cons_false _ (by decide)
      have hhi : headIs '}' S = false := by
        rw [hS]
        rfl
      have hpv' : ∀ u : String × JsonValue, (u = (k, v) ∨ u ∈ ms2) → ∀ r2, NumBdry r2 →
          jsonParseValue f (encodeVal u.2 ++ r2) = some (u.2, r2) := by
        intro u hu r2 hb2
        rcases hu with hu | hu
        · subst hu
          exact ih (k, v) (List.mem_cons_self _ _) f (by omega) r2 hb2
        · exact ih u (List.mem_cons_of_mem _ hu) f (by omega) r2 hb2
      have hloop := jsonMembersLoop_encode (jsonParseValue f) ms2 k v hpv' (S.length + 1)
        (by
          rw [hS]
          simp only [List.length_append, List.length_cons]
          have := encodeMembersTail_len ms2
          omega) rest
      rw [← hS] at hloop
      rw [hs, jsonParseValue_lbrace, hsk2, hhi, if_neg (by decide), hloop]

theorem encodeElemsTail_mem_le (x : JsonValue) (xs : List JsonValue) (hm : x ∈ xs) :
    (encodeVal x).length + 1 ≤ (encodeElemsTail xs).length := by
  induction xs with
  | nil => cases hm
  | cons y ys ih =>
    rcases List.mem_cons.mp hm with h | h
    · subst h
      show _ ≤ (',' :: (encodeVal x ++ encodeElemsTail ys)).length
      simp only [List.length_cons, List.length_append]
      omega
    · have := ih h
      show _ ≤ (',' :: (encodeVal y ++ encodeElemsTail ys)).length
      simp only [List.length_cons, List.length_append]
      omega

theorem encodeMemberJ_le (m : String × JsonValue) :
    (encodeVal m.2).length + 1 ≤ (encodeMemberJ m).length := by
  rcases m with ⟨k, v⟩
  show _ ≤ (encodeStringChars k ++ ':' :: encodeVal v).length
  simp only [List.length_append, List.length_cons]
  omega

theorem encodeMembersTail_mem_le (m : String × JsonValue)
    (ms : List (String × JsonValue)) (hm : m ∈ ms) :
    (encodeVal m.2).length + 1 ≤ (encodeMembersTail ms).length := by
  induction ms with
  | nil => cases hm
  | cons y ys ih =>
    rcases List.mem_cons.mp hm with h | h
    · subst h
      have := encodeMemberJ_le m
      show _ ≤ (',' :: (encodeMemberJ m ++ encodeMembersTail ys)).length
      simp only [List.length_cons, List.length_append]
      omega
    · have := ih h
      show _ ≤ (',' :: (encodeMemberJ y ++ encodeMembersTail ys)).length
      simp only [List.length_cons, List.length_append]
      omega

theorem wfJsonD_encode_depth {n : Nat} {v : JsonValue} (hw : WfJsonD n v) :
    WfJsonD ((encodeVal v).length + 1) v := by
  induction hw with
  | wstr n s => exact .wstr _ s
  | wnum n d hc => exact .wnum _ d hc
  | wbool n b => exact .wbool _ b
  | wnull n => exact .wnull _
  | warr n xs h ih =>
    refine .warr _ xs (fun x hx => WfJsonD_mono (ih x hx) _ ?_)
    cases xs with
    | nil => cases hx
    | cons y ys =>
      rcases List.mem_cons.mp hx with hh | hh
      · subst hh
        show _ ≤ (('[' :: (encodeVal x ++ encodeElemsTail ys)) ++ [']']).length
        simp only [List.length_append, List.length_cons]
        omega
      · have := encodeElemsTail_mem_le x ys hh
        show _ ≤ (('[' :: (encodeVal y ++ encodeElemsTail ys)) ++ [']']).length
        simp only [List.length_append, List.length_cons]
        omega
  | wobj n ms h ih =>
    refine .wobj _ ms (fun m hm => WfJsonD_mono (ih m hm) _ ?_)
    cases ms with
    | nil => cases hm
    | cons y ys =>
      rcases List.mem_cons.mp hm with hh | hh
      · subst hh
        have := encodeMemberJ_le m
        show _ ≤ (('{' :: (encodeMemberJ m ++ encodeMembersTail ys)) ++ ['}']).length
        simp only [List.length_append, List.length_cons]
        omega
      · have := encodeMembersTail_mem_le m ys hh
        show _ ≤ (('{' :: (encodeMemberJ y ++ encodeMembersTail ys)) ++ ['}']).length
        simp only [List.length_append, List.length_cons]
        omega

theorem jsonParse_stringify {n : Nat} {v : JsonValue} (hw : WfJsonD n v) :
    jsonParse (jsonStringify v) = some v := by
  have hw2 := wfJsonD_encode_depth hw
  rw [jsonParse]
  have hdata : (jsonStringify v).data = encodeVal v := rfl
  have hlen : (jsonStringify v).length = (encodeVal v).length := rfl
  rw [hdata, hlen]
  have h1 := jsonParseValue_encode hw2 ((encodeVal v).length + 1) le_rfl [] numBdry_nil
  rw [List.append_nil] at h1
  rw [h1]
  rfl

/-- C9: for every nested schema shape and every well formed structured
value (canonical numbers, as the JavaScript JSON functions produce) that
conforms to the shape, in the sense that validating it against z.object
of the shape succeeds and returns it unchanged, serializing the value
with JSON.stringify and applying the JSON object transformer yields the
original value: JSON object fields round-trip. -/
theorem c9_json_roundtrip (fuel n : Nat) (shape : List (String × ZSchema)) (v : JsonValue)
    (hwf : WfJsonD n v) (hconf : zObjectParse fuel shape v = .ok v) :
    transform.json fuel shape (jsonStringify v) = .ok v := by
  rw [transform.json, jsonParse_stringify hwf]
  simp only [hconf]

/-- Witness: a concrete one field shape and a conforming object value on
which the round-trip theorem applies with all hypotheses discharged. -/
theorem c9_witness :
    WfJsonD 2 (.obj [("A", .str "x")]) ∧
      zObjectParse 5 [("A", ZSchema.zstring none)] (.obj [("A", .str "x")]) =
        .ok (.obj [("A", .str "x")]) ∧
      transform.json 5 [("A", ZSchema.zstring none)]
          (jsonStringify (.obj [("A", .str "x")])) =
        .ok (.obj [("A", .str "x")]) :=
  ⟨.wobj 1 _ (by
      intro m hm
      simp only [List.mem_singleton] at hm
      rw [hm]
      exact .wstr 0 "x"),
   by rfl,
   c9_json_roundtrip 5 2 [("A", ZSchema.zstring none)] (.obj [("A", .str "x")])
     (.wobj 1 _ (by
        intro m hm
        simp only [List.mem_singleton] at hm
        rw [hm]
        exact .wstr 0 "x"))
     (by rfl)⟩
